import Mathlib

/-!
# GameForge `gf::AngleT` (include/private/Angle.hpp)

A shallow embedding of the angle value type and of the arithmetic it runs on.

The class stores one scalar, the angle in radians, and every member is a one-line
expression over that scalar.  What the members compute therefore depends on the
arithmetic of the scalar type, so the embedding is generic over a class `Scalar`
with three instances:

* `F64`, an executable model of IEEE-754 binary64 with round-to-nearest-even,
  signed zeros, infinities and NaN: the arithmetic of `double`;
* `ℚ`, exact arithmetic, with `M_PI` the decimal literal of the header;
* `ℝ`, exact arithmetic with `M_PI` the number `π`, for the trigonometric members.

The functions of `<cmath>` that the trigonometric members call are a second parameter,
the class `Cmath`: over `ℝ` they are the exact functions, over `double` they are whatever
the platform provides, and `Cmath.Accurate` says of such a library that it returns doubles
within about one unit in the last place of the exact values.  `F32` is binary32, for the
instantiation at `float`, and `F80` is the x87 double-extended format, a `long double`
wider than `double`, for the argument of the literal operators.
-/

namespace gf

/-! ## IEEE-754 binary floating point -/

/-- A binary interchange format: `prec` significand bits, largest exponent `emax`. -/
structure Format where
  prec : Nat
  emax : Nat
  deriving DecidableEq, Repr

/-- The format of `double`. -/
def binary64 : Format := { prec := 53, emax := 1023 }

/-- The format of `float`. -/
def binary32 : Format := { prec := 24, emax := 127 }

/-- Smallest exponent of a normal number. -/
def Format.emin (f : Format) : Int := 1 - (f.emax : Int)

/-- The power of two `2^k` as a rational, for an integer exponent. -/
def pow2 (k : Int) : ℚ :=
  if 0 ≤ k then ((2 ^ k.toNat : Nat) : ℚ) else 1 / ((2 ^ (-k).toNat : Nat) : ℚ)

/-- Binary logarithm by repeated halving, at most `fuel` times. -/
def log2Fuel : Nat → Nat → Nat
  | 0, _ => 0
  | fuel + 1, n => if n < 2 then 0 else log2Fuel fuel (n / 2) + 1

/-- Floor of the binary logarithm of a natural number (`0` at `0`). -/
def natLog2 (n : Nat) : Nat := log2Fuel n n

/-- Floor of the binary logarithm of a positive rational. -/
def ilog2 (a : ℚ) : Int :=
  let e0 : Int := (natLog2 a.num.natAbs : Int) - (natLog2 a.den : Int)
  if pow2 e0 ≤ a then e0 else e0 - 1

/-- Round a non-negative rational to the nearest integer, ties to even. -/
def rne (y : ℚ) : Int :=
  let n : Int := ⌊y⌋
  let r : ℚ := y - (n : ℚ)
  if r < 1 / 2 then n
  else if 1 / 2 < r then n + 1
  else if n % 2 = 0 then n else n + 1

/-- Round a non-negative rational magnitude to the format, to nearest, ties to even.
`none` is overflow: the rounded magnitude exceeds the largest finite number. -/
def Format.roundMag (f : Format) (a : ℚ) : Option ℚ :=
  let e : Int := max (ilog2 a) f.emin
  let k : Int := e - ((f.prec : Int) - 1)
  let r : ℚ := (rne (a / pow2 k) : ℚ) * pow2 k
  if r < pow2 ((f.emax : Int) + 1) then some r else none

/-- A floating-point datum of format `f`: NaN, a signed infinity, or a finite number
given by its sign bit (`true` is negative) and its magnitude.  Zero has both signs.
The magnitudes that arise are the non-negative rationals representable in `f`. -/
inductive IEEE (f : Format) where
  | nan : IEEE f
  | inf (neg : Bool) : IEEE f
  | fin (neg : Bool) (mag : ℚ) : IEEE f
  deriving DecidableEq, Repr

namespace IEEE

variable {f : Format}

/-- Finite datum of the given sign whose magnitude is `a` rounded; infinity on overflow. -/
def round (f : Format) (neg : Bool) (a : ℚ) : IEEE f :=
  match f.roundMag a with
  | some r => fin neg r
  | none => inf neg

/-- The literal or exact value `v` converted to the format. -/
def ofRat (f : Format) (v : ℚ) : IEEE f := round f (decide (v < 0)) |v|

/-- Signed value of a finite magnitude. -/
def signed (neg : Bool) (mag : ℚ) : ℚ := if neg then -mag else mag

/-- Negation flips the sign bit; NaN stays NaN. -/
def neg : IEEE f → IEEE f
  | nan => nan
  | inf s => inf (!s)
  | fin s m => fin (!s) m

/-- Multiplication. -/
def mul : IEEE f → IEEE f → IEEE f
  | nan, _ => nan
  | _, nan => nan
  | inf s, inf t => inf (xor s t)
  | inf s, fin t m => if m = 0 then nan else inf (xor s t)
  | fin s m, inf t => if m = 0 then nan else inf (xor s t)
  | fin s m, fin t n => round f (xor s t) (m * n)

/-- Division. -/
def div : IEEE f → IEEE f → IEEE f
  | nan, _ => nan
  | _, nan => nan
  | inf _, inf _ => nan
  | inf s, fin t _ => inf (xor s t)
  | fin s _, inf t => fin (xor s t) 0
  | fin s m, fin t n =>
    if n = 0 then (if m = 0 then nan else inf (xor s t))
    else round f (xor s t) (m / n)

/-- Addition. An exact zero sum of opposite signs is `+0`. -/
def add : IEEE f → IEEE f → IEEE f
  | nan, _ => nan
  | _, nan => nan
  | inf s, inf t => if s = t then inf s else nan
  | inf s, fin _ _ => inf s
  | fin _ _, inf t => inf t
  | fin s m, fin t n =>
    let v : ℚ := signed s m + signed t n
    if v = 0 then fin (s && t) 0
    else round f (decide (v < 0)) |v|

/-- Subtraction is addition of the negated right operand. -/
def sub (x y : IEEE f) : IEEE f := add x (neg y)

/-- Comparison `==`: false on NaN, and the two zeros are equal. -/
def eq : IEEE f → IEEE f → Bool
  | inf s, inf t => s == t
  | fin s m, fin t n => decide (signed s m = signed t n)
  | _, _ => false

/-- Comparison `<`: false on NaN. -/
def lt : IEEE f → IEEE f → Bool
  | inf s, inf t => s && !t
  | inf s, fin _ _ => s
  | fin _ _, inf t => !t
  | fin s m, fin t n => decide (signed s m < signed t n)
  | _, _ => false

/-- Comparison `>`. -/
def gt (x y : IEEE f) : Bool := lt y x

/-- Comparison `<=`: false on NaN. -/
def le (x y : IEEE f) : Bool := lt x y || eq x y

/-- Comparison `>=`: false on NaN. -/
def ge (x y : IEEE f) : Bool := le y x

end IEEE

/-- The type `double`. -/
abbrev F64 : Type := IEEE binary64

/-! ## The scalar type of the template -/

/-- What `AngleT<AngleType>` asks of `AngleType`: value-initialisation, the constants
`M_PI` and `180.0` of the header, the arithmetic operators and the comparisons. -/
class Scalar (T : Type) where
  zero : T
  M_PI : T
  c180 : T
  add : T → T → T
  sub : T → T → T
  mul : T → T → T
  div : T → T → T
  neg : T → T
  eq : T → T → Bool
  lt : T → T → Bool
  gt : T → T → Bool
  le : T → T → Bool
  ge : T → T → Bool

/-- The decimal literal of `#define M_PI 3.14159265358979323846`. -/
def M_PI_literal : ℚ := 314159265358979323846 / 100000000000000000000

/-- The arithmetic of `double`: IEEE-754 binary64, round to nearest even.  The literals
`M_PI` and `180.0` are the doubles nearest to their decimal values. -/
instance instScalarF64 : Scalar F64 where
  zero := IEEE.fin false 0
  M_PI := IEEE.ofRat binary64 M_PI_literal
  c180 := IEEE.ofRat binary64 180
  add := IEEE.add
  sub := IEEE.sub
  mul := IEEE.mul
  div := IEEE.div
  neg := IEEE.neg
  eq := IEEE.eq
  lt := IEEE.lt
  gt := IEEE.gt
  le := IEEE.le
  ge := IEEE.ge

/-- Exact arithmetic: the same expressions over the rationals, nothing rounded. -/
instance instScalarRat : Scalar ℚ where
  zero := 0
  M_PI := M_PI_literal
  c180 := 180
  add := fun a b => a + b
  sub := fun a b => a - b
  mul := fun a b => a * b
  div := fun a b => a / b
  neg := fun a => -a
  eq := fun a b => decide (a = b)
  lt := fun a b => decide (a < b)
  gt := fun a b => decide (a > b)
  le := fun a b => decide (a ≤ b)
  ge := fun a b => decide (a ≥ b)

/-- The conversion `static_cast<T>(x)` from a value of type `S`. -/
class StaticCast (S T : Type) where
  cast : S → T

/-- Casting a value to its own type returns it. -/
instance instStaticCastSelf (T : Type) : StaticCast T T where
  cast := fun x => x

/-! ## `gf::AngleT`

Inside the class template the header writes the result and parameter type of the members
as `Angle`, the alias of `AngleT<double>`.  The members are embedded for the instantiation
at `double`, where `Angle` is the class itself; the type parameter `T` of the embedding is
the arithmetic in which that instantiation is read, binary64 or exact. -/

/-- The class `AngleT<AngleType>`: its one data member, the angle in radians. -/
structure AngleT (T : Type) where
  radians : T
  deriving DecidableEq, Repr

/-- The alias `using Angle = AngleT<double>`. -/
abbrev Angle : Type := AngleT F64

namespace AngleT

variable {T : Type} [Scalar T]

/-- The default constructor `AngleT(): radians{}`. -/
def ctor_default : AngleT T := { radians := Scalar.zero }

/-- The converting constructor
`AngleT(OtherAngleType radians): radians{static_cast<AngleType>(radians)}`. -/
def ctor {S : Type} [StaticCast S T] (radians : S) : AngleT T :=
  { radians := StaticCast.cast radians }

/-- The member `from_degrees`: `return Angle{degrees * M_PI / 180.0};`. -/
def from_degrees (degrees : T) : AngleT T :=
  ctor (Scalar.div (Scalar.mul degrees Scalar.M_PI) Scalar.c180)

/-- The member `from_radians`: `return Angle{radians};`. -/
def from_radians (radians : T) : AngleT T := ctor radians

/-- The member `get_degrees`: `return radians * 180.0 / M_PI;`. -/
def get_degrees (self : AngleT T) : T :=
  Scalar.div (Scalar.mul self.radians Scalar.c180) Scalar.M_PI

/-- The member `get_radians`: `return radians;`. -/
def get_radians (self : AngleT T) : T := self.radians

/-- The member `operator+`: `return Angle{radians + other.radians};`. -/
def operator_add (self other : AngleT T) : AngleT T :=
  ctor (Scalar.add self.radians other.radians)

/-- The binary member `operator-`: `return Angle{radians - other.radians};`. -/
def operator_sub (self other : AngleT T) : AngleT T :=
  ctor (Scalar.sub self.radians other.radians)

/-- The unary member `operator-`: `return Angle{-radians};`. -/
def operator_neg (self : AngleT T) : AngleT T :=
  ctor (Scalar.neg self.radians)

/-- The member `operator*`: `return Angle{radians * scalar};`. -/
def operator_mul (self : AngleT T) (scalar : T) : AngleT T :=
  ctor (Scalar.mul self.radians scalar)

/-- The member `operator/`: `return Angle{radians / scalar};`. -/
def operator_div (self : AngleT T) (scalar : T) : AngleT T :=
  ctor (Scalar.div self.radians scalar)

/-- The member `operator==`: `return radians == other.radians;`. -/
def operator_eq (self other : AngleT T) : Bool :=
  Scalar.eq self.radians other.radians

/-- The member `operator!=`: `return !(*this == other);`. -/
def operator_ne (self other : AngleT T) : Bool :=
  !(operator_eq self other)

/-- The member `operator<`: `return radians < other.radians;`. -/
def operator_lt (self other : AngleT T) : Bool :=
  Scalar.lt self.radians other.radians

/-- The member `operator>`: `return radians > other.radians;`. -/
def operator_gt (self other : AngleT T) : Bool :=
  Scalar.gt self.radians other.radians

/-- The member `operator<=`: `return !(*this > other);`. -/
def operator_le (self other : AngleT T) : Bool :=
  !(operator_gt self other)

/-- The member `operator>=`: `return !(*this < other);`. -/
def operator_ge (self other : AngleT T) : Bool :=
  !(operator_lt self other)

end AngleT

/-! ## Objects in memory, for the members that assign to `*this` -/

/-- The address of an angle object. -/
abbrev Addr : Type := Nat

/-- The angle objects in memory, by address. -/
abbrev Store (T : Type) : Type := Addr → AngleT T

/-- The store after the data member of the object at `p` is assigned `r`. -/
def Store.assign {T : Type} (σ : Store T) (p : Addr) (r : T) : Store T :=
  fun q => if q = p then { radians := r } else σ q

namespace AngleT

variable {T : Type} [Scalar T]

/-- The member `operator+=`: `radians += other.radians; return *this;`.
`this` and `other` are the addresses of the receiver and of the referenced operand;
the result is the new store and the address the returned reference designates. -/
def operator_add_assign (σ : Store T) (this other : Addr) : Store T × Addr :=
  (σ.assign this (Scalar.add (σ this).radians (σ other).radians), this)

/-- The member `operator-=`: `radians -= other.radians; return *this;`. -/
def operator_sub_assign (σ : Store T) (this other : Addr) : Store T × Addr :=
  (σ.assign this (Scalar.sub (σ this).radians (σ other).radians), this)

/-- The member `operator*=`: `radians *= scalar; return *this;`. -/
def operator_mul_assign (σ : Store T) (this : Addr) (scalar : T) : Store T × Addr :=
  (σ.assign this (Scalar.mul (σ this).radians scalar), this)

/-- The member `operator/=`: `radians /= scalar; return *this;`. -/
def operator_div_assign (σ : Store T) (this : Addr) (scalar : T) : Store T × Addr :=
  (σ.assign this (Scalar.div (σ this).radians scalar), this)

end AngleT

/-- The double nearest to the decimal value `v`: a floating literal of the source. -/
def lit (v : ℚ) : F64 := IEEE.ofRat binary64 v

/-! ## The functions of `<cmath>` -/

/-- The functions `std::sin`, `std::cos`, `std::tan`, `std::asin`, `std::acos` and
`std::atan` of the platform math library, on the scalar type.  They are not code of the
header, which only calls them: the embedding takes them as a parameter. -/
class Cmath (T : Type) where
  sin : T → T
  cos : T → T
  tan : T → T
  asin : T → T
  acos : T → T
  atan : T → T

namespace AngleT

variable {T : Type} [Cmath T]

/-- The member `sin`: `return std::sin(radians);`. -/
def sin (self : AngleT T) : T := Cmath.sin self.radians

/-- The member `cos`: `return std::cos(radians);`. -/
def cos (self : AngleT T) : T := Cmath.cos self.radians

/-- The member `tan`: `return std::tan(radians);`. -/
def tan (self : AngleT T) : T := Cmath.tan self.radians

/-- The member `asin`: `return std::asin(radians);`. -/
def asin (self : AngleT T) : T := Cmath.asin self.radians

/-- The member `acos`: `return std::acos(radians);`. -/
def acos (self : AngleT T) : T := Cmath.acos self.radians

/-- The member `atan`: `return std::atan(radians);`. -/
def atan (self : AngleT T) : T := Cmath.atan self.radians

end AngleT

/-- Exact arithmetic over the real numbers: nothing is rounded and `M_PI` is the number
`π` that the decimal literal of the header stands for. -/
noncomputable instance instScalarReal : Scalar ℝ where
  zero := 0
  M_PI := Real.pi
  c180 := 180
  add := fun a b => a + b
  sub := fun a b => a - b
  mul := fun a b => a * b
  div := fun a b => a / b
  neg := fun a => -a
  eq := fun a b => decide (a = b)
  lt := fun a b => decide (a < b)
  gt := fun a b => decide (a > b)
  le := fun a b => decide (a ≤ b)
  ge := fun a b => decide (a ≥ b)

/-- The exact trigonometric functions and their inverses. -/
noncomputable instance instCmathReal : Cmath ℝ where
  sin := Real.sin
  cos := Real.cos
  tan := Real.tan
  asin := Real.arcsin
  acos := Real.arccos
  atan := Real.arctan

/-- A datum is finite and its value is within `ε` of the real number `v`. -/
def IEEE.Within {f : Format} (x : IEEE f) (v ε : ℝ) : Prop :=
  ∃ (s : Bool) (q : ℚ), x = IEEE.fin s q ∧ |((IEEE.signed s q : ℚ) : ℝ) - v| ≤ ε

/-- The math library all of whose functions return the datum `v` at every argument; it
serves to show that what the statements ask of a library can be met. -/
def constLibm (v : F64) : Cmath F64 where
  sin := fun _ => v
  cos := fun _ => v
  tan := fun _ => v
  asin := fun _ => v
  acos := fun _ => v
  atan := fun _ => v

/-! ## Single precision and the conversions between the formats -/

/-- The type `float`. -/
abbrev F32 : Type := IEEE binary32

/-- Conversion of a datum to the format `g`: its value rounded to `g`. -/
def IEEE.convert {f : Format} (g : Format) : IEEE f → IEEE g
  | IEEE.nan => IEEE.nan
  | IEEE.inf s => IEEE.inf s
  | IEEE.fin s m => IEEE.round g s m

/-- The promotion of a `float` to `double`. -/
instance instStaticCastF32F64 : StaticCast F32 F64 where
  cast := IEEE.convert binary64

/-- The conversion of a `double` to `float`. -/
instance instStaticCastF64F32 : StaticCast F64 F32 where
  cast := IEEE.convert binary32

/-- The float nearest to the decimal value `v`: a floating literal with suffix `f`. -/
def litf (v : ℚ) : F32 := IEEE.ofRat binary32 v

/-- The alias `using Anglef = AngleT<float>`. -/
abbrev Anglef : Type := AngleT F32

/-- The member `from_degrees` of `AngleT<float>`: `return Angle{degrees * M_PI / 180.0};`.
`Angle` is the alias of `AngleT<double>`; `degrees` is promoted to `double` for the
product with the `double` constant `M_PI`, and the `double` quotient initialises
the `double` member of the result. -/
def Anglef.from_degrees (degrees : F32) : Angle :=
  AngleT.ctor (Scalar.div (Scalar.mul (StaticCast.cast degrees : F64) Scalar.M_PI) Scalar.c180)

/-- The member `from_radians` of `AngleT<float>`: `return Angle{radians};`, the converting
constructor of `AngleT<double>` applied to a `float`. -/
def Anglef.from_radians (radians : F32) : Angle := AngleT.ctor radians

/-- The member `get_radians` of `AngleT<float>`: `return radians;`. -/
def Anglef.get_radians (self : Anglef) : F32 := self.radians

/-- The member `get_degrees` of `AngleT<float>`: `return radians * 180.0 / M_PI;`, computed
in `double` and converted to the result type `float`. -/
def Anglef.get_degrees (self : Anglef) : F32 :=
  StaticCast.cast
    (Scalar.div (Scalar.mul (StaticCast.cast self.radians : F64) Scalar.c180) Scalar.M_PI)

/-! ## Extended precision -/

/-- The x87 double-extended format, 64 significand bits: the `long double` of the
compilers for x86. -/
def x87ext : Format := { prec := 64, emax := 16383 }

/-- The type `long double` where it is the x87 double-extended format. -/
abbrev F80 : Type := IEEE x87ext

/-- The conversion of such a `long double` to `double`. -/
instance instStaticCastF80F64 : StaticCast F80 F64 where
  cast := IEEE.convert binary64

/-- The promotion of a `double` to such a `long double`. -/
instance instStaticCastF64F80 : StaticCast F64 F80 where
  cast := IEEE.convert x87ext

/-- The `long double` nearest to the decimal value `v`: the floating literal in front of a
literal suffix, where `long double` is the x87 format. -/
def litl (v : ℚ) : F80 := IEEE.ofRat x87ext v

/-! ## The literal operators -/

/-- The literal operator `_deg`: `return Angle::from_degrees(degrees);`.  `L` is the type
`long double` of the platform; the argument is converted to the `double` parameter. -/
def operator_deg {L : Type} [StaticCast L F64] (degrees : L) : Angle :=
  AngleT.from_degrees (StaticCast.cast degrees : F64)

/-- The literal operator `_rad`: `return Angle::from_radians(radians);`. -/
def operator_rad {L : Type} [StaticCast L F64] (radians : L) : Angle :=
  AngleT.from_radians (StaticCast.cast radians : F64)

/-! ## Constants and objects used in the statements -/

/-- The value of the double `M_PI`, nearest to the decimal literal of the header. -/
def piD : ℚ := 884279719003555 / 281474976710656

/-- Two angle objects of 90 degrees each, at the addresses `0` and `1`. -/
def twoRightAngles : Store F64 :=
  fun p => if p = 0 then AngleT.from_degrees (lit 90) else AngleT.from_degrees (lit 90)

/-- The magnitudes of the finite numbers of a format: `m * 2^k` with a significand `m` of
at most `prec` bits and the exponent `k` of its last place in range. -/
def Format.Representable (f : Format) (q : ℚ) : Prop :=
  ∃ (m : Nat) (k : Int), m < 2 ^ f.prec ∧ f.emin - ((f.prec : Int) - 1) ≤ k
    ∧ k ≤ (f.emax : Int) - ((f.prec : Int) - 1) ∧ q = (m : ℚ) * 2 ^ k

/-- A datum is a datum of the format when it is NaN, an infinity, or finite with a
representable magnitude. -/
def IEEE.Valid {f : Format} : IEEE f → Prop
  | IEEE.nan => True
  | IEEE.inf _ => True
  | IEEE.fin _ q => f.Representable q

/-! ## Accuracy of a math library -/

/-- The datum `y` is a double, finite, and within `|v| / 2^52 + 2^-78` of the real number
`v`: about one unit in the last place of `v`. -/
def IEEE.Near (y : F64) (v : ℝ) : Prop :=
  y.Valid ∧ y.Within v (|v| / 2 ^ 52 + 1 / 2 ^ 78)

/-- A math library for `double` is accurate when its sine, cosine and arc tangent at every
finite double, and its arc sine and arc cosine at every finite double of `[-1, 1]`, return
a double near the value of the exact function. -/
def Cmath.Accurate (m : Cmath F64) : Prop :=
  ∀ (s : Bool) (q : ℚ), binary64.Representable q →
    (m.sin (IEEE.fin s q)).Near (Real.sin ((IEEE.signed s q : ℚ) : ℝ))
    ∧ (m.cos (IEEE.fin s q)).Near (Real.cos ((IEEE.signed s q : ℚ) : ℝ))
    ∧ (m.atan (IEEE.fin s q)).Near (Real.arctan ((IEEE.signed s q : ℚ) : ℝ))
    ∧ (q ≤ 1 →
        (m.asin (IEEE.fin s q)).Near (Real.arcsin ((IEEE.signed s q : ℚ) : ℝ))
        ∧ (m.acos (IEEE.fin s q)).Near (Real.arccos ((IEEE.signed s q : ℚ) : ℝ)))

/-! ## Rounding: the error of one operation -/

theorem pow2_eq (k : Int) : pow2 k = (2 : ℚ) ^ k := by
  unfold pow2
  split_ifs with h
  · have hk : ((k.toNat : Int)) = k := Int.toNat_of_nonneg h
    rw [Nat.cast_pow, Nat.cast_ofNat, ← zpow_natCast, hk]
  · have hk : (((-k).toNat : Int)) = -k := Int.toNat_of_nonneg (by omega)
    rw [Nat.cast_pow, Nat.cast_ofNat, ← zpow_natCast, hk, zpow_neg, one_div, inv_inv]

theorem pow2_pos (k : Int) : 0 < pow2 k := by
  rw [pow2_eq]; positivity

theorem log2Fuel_spec (fuel : Nat) : ∀ n : Nat, n ≤ fuel → n ≠ 0 →
    2 ^ log2Fuel fuel n ≤ n ∧ n < 2 ^ (log2Fuel fuel n + 1) := by
  induction fuel with
  | zero => intro n h0 h1; omega
  | succ fuel ih =>
    intro n hn h0
    unfold log2Fuel
    split_ifs with h2
    · simp; omega
    · obtain ⟨ih1, ih2⟩ := ih (n / 2) (by omega) (by omega)
      rw [pow_succ, pow_succ] at *
      constructor <;> omega

theorem natLog2_spec (n : Nat) (h0 : n ≠ 0) :
    2 ^ natLog2 n ≤ n ∧ n < 2 ^ (natLog2 n + 1) :=
  log2Fuel_spec n n (le_refl n) h0

theorem ilog2_le (a : ℚ) (ha : 0 < a) : (2 : ℚ) ^ ilog2 a ≤ a := by
  unfold ilog2
  simp only
  split_ifs with h
  · rwa [pow2_eq] at h
  · have hnpos : 0 < a.num := Rat.num_pos.mpr ha
    have hN : a.num.natAbs ≠ 0 := by omega
    have hD : a.den ≠ 0 := a.den_nz
    obtain ⟨h1, _⟩ := natLog2_spec _ hN
    obtain ⟨_, h2⟩ := natLog2_spec _ hD
    have hnum : ((a.num.natAbs : ℕ) : ℚ) = a.num := by
      rw [← Int.cast_natCast, Int.natAbs_of_nonneg (le_of_lt hnpos)]
    have ha' : a = (a.num.natAbs : ℚ) / (a.den : ℚ) := by rw [hnum, Rat.num_div_den]
    have h1' : (2 : ℚ) ^ natLog2 a.num.natAbs ≤ (a.num.natAbs : ℚ) := by exact_mod_cast h1
    have h2' : (a.den : ℚ) ≤ (2 : ℚ) ^ (natLog2 a.den + 1) := by exact_mod_cast le_of_lt h2
    have hDpos : (0 : ℚ) < a.den := by exact_mod_cast Nat.pos_of_ne_zero hD
    have hexp : ((natLog2 a.num.natAbs : Int) - (natLog2 a.den : Int) - 1)
        = (natLog2 a.num.natAbs : Int) - ((natLog2 a.den + 1 : ℕ) : Int) := by
      push_cast; ring
    rw [hexp, zpow_sub₀ (by norm_num), zpow_natCast, zpow_natCast]
    conv_rhs => rw [ha']
    exact div_le_div₀ (by positivity) h1' hDpos h2'

theorem ilog2_lt (a : ℚ) (ha : 0 < a) : a < (2 : ℚ) ^ (ilog2 a + 1) := by
  unfold ilog2
  simp only
  split_ifs with h
  · have hnpos : 0 < a.num := Rat.num_pos.mpr ha
    have hN : a.num.natAbs ≠ 0 := by omega
    have hD : a.den ≠ 0 := a.den_nz
    obtain ⟨_, h1⟩ := natLog2_spec _ hN
    obtain ⟨h2, _⟩ := natLog2_spec _ hD
    have hnum : ((a.num.natAbs : ℕ) : ℚ) = a.num := by
      rw [← Int.cast_natCast, Int.natAbs_of_nonneg (le_of_lt hnpos)]
    have ha' : a = (a.num.natAbs : ℚ) / (a.den : ℚ) := by rw [hnum, Rat.num_div_den]
    have h1' : (a.num.natAbs : ℚ) < (2 : ℚ) ^ (natLog2 a.num.natAbs + 1) := by exact_mod_cast h1
    have h2' : (2 : ℚ) ^ natLog2 a.den ≤ (a.den : ℚ) := by exact_mod_cast h2
    have hexp : ((natLog2 a.num.natAbs : Int) - (natLog2 a.den : Int) + 1)
        = ((natLog2 a.num.natAbs + 1 : ℕ) : Int) - ((natLog2 a.den : ℕ) : Int) := by
      push_cast; ring
    rw [hexp, zpow_sub₀ (by norm_num), zpow_natCast, zpow_natCast]
    conv_lhs => rw [ha']
    exact div_lt_div₀ h1' h2' (by positivity) (by positivity)
  · rw [pow2_eq] at h
    rw [sub_add_cancel]
    exact not_le.mp h

theorem rne_err (y : ℚ) : |((rne y : Int) : ℚ) - y| ≤ 1 / 2 := by
  unfold rne
  simp only
  have h1 := Int.floor_le y
  have h2 := Int.lt_floor_add_one y
  split_ifs <;> rw [abs_le] <;> constructor <;> push_cast <;> linarith

theorem rne_nonneg (y : ℚ) (hy : 0 ≤ y) : (0 : ℚ) ≤ ((rne y : Int) : ℚ) := by
  have h0 : (0 : Int) ≤ ⌊y⌋ := Int.floor_nonneg.mpr hy
  have : (0 : Int) ≤ rne y := by
    unfold rne
    simp only
    split_ifs <;> omega
  exact_mod_cast this

theorem rne_le_of_lt (y : ℚ) (B : Int) (h : y < (B : ℚ)) : rne y ≤ B := by
  have h1 : ⌊y⌋ < B := Int.floor_lt.mpr h
  unfold rne
  simp only
  split_ifs <;> omega

theorem le_rne_of_le (y : ℚ) (B : Int) (h : (B : ℚ) ≤ y) : B ≤ rne y := by
  have h1 : B ≤ ⌊y⌋ := Int.le_floor.mpr h
  unfold rne
  simp only
  split_ifs <;> omega

theorem rne_intCast (n : Int) : rne (n : ℚ) = n := by
  unfold rne
  simp

/-- The rounded magnitude before the overflow test. -/
theorem roundMag_eq (f : Format) (a : ℚ) :
    f.roundMag a =
      if ((rne (a / 2 ^ (max (ilog2 a) f.emin - ((f.prec : Int) - 1))) : Int) : ℚ)
            * 2 ^ (max (ilog2 a) f.emin - ((f.prec : Int) - 1)) < 2 ^ ((f.emax : Int) + 1)
      then some (((rne (a / 2 ^ (max (ilog2 a) f.emin - ((f.prec : Int) - 1))) : Int) : ℚ)
            * 2 ^ (max (ilog2 a) f.emin - ((f.prec : Int) - 1)))
      else none := by
  unfold Format.roundMag
  simp only [pow2_eq]

/-- The distance from a rational to its rounding with ulp `2^k` is at most half an ulp. -/
theorem scaled_rne_err (a : ℚ) (k : Int) :
    |((rne (a / 2 ^ k) : Int) : ℚ) * 2 ^ k - a| ≤ 2 ^ k / 2 := by
  have hk : (0 : ℚ) < 2 ^ k := by positivity
  have h := rne_err (a / 2 ^ k)
  have e : ((rne (a / 2 ^ k) : Int) : ℚ) * 2 ^ k - a
      = (((rne (a / 2 ^ k) : Int) : ℚ) - a / 2 ^ k) * 2 ^ k := by
    field_simp
  rw [e, abs_mul, abs_of_pos hk]
  calc |((rne (a / 2 ^ k) : Int) : ℚ) - a / 2 ^ k| * 2 ^ k ≤ 1 / 2 * 2 ^ k :=
        mul_le_mul_of_nonneg_right h (le_of_lt hk)
    _ = 2 ^ k / 2 := by ring

theorem zpow_half (k : Int) : (2 : ℚ) ^ k / 2 = 2 ^ (k - 1) := by
  rw [zpow_sub₀ (by norm_num : (2 : ℚ) ≠ 0), zpow_one]

/-- Rounding stays within `B` of its argument when half an ulp is at most `B` and
`B` more than the argument is still below the overflow threshold. -/
theorem roundMag_core (f : Format) (a B : ℚ)
    (hB : (2 : ℚ) ^ (max (ilog2 a) f.emin - (f.prec : Int)) ≤ B)
    (hov : a + B < 2 ^ ((f.emax : Int) + 1)) :
    ∃ r, f.roundMag a = some r ∧ |r - a| ≤ B := by
  have herr := scaled_rne_err a (max (ilog2 a) f.emin - ((f.prec : Int) - 1))
  have hhalf : (2 : ℚ) ^ (max (ilog2 a) f.emin - ((f.prec : Int) - 1)) / 2
      = 2 ^ (max (ilog2 a) f.emin - (f.prec : Int)) := by
    rw [zpow_half]
    congr 1
    ring
  rw [hhalf] at herr
  have hle := le_trans herr hB
  refine ⟨_, ?_, hle⟩
  rw [roundMag_eq, if_pos]
  have := (abs_le.mp hle).2
  linarith

theorem roundMag_zero (f : Format) : f.roundMag 0 = some 0 := by
  have h0 : rne 0 = 0 := by
    unfold rne
    simp
  rw [roundMag_eq]
  simp only [zero_div, h0, Int.cast_zero, zero_mul]
  rw [if_pos (by positivity)]

/-- Half an ulp at a magnitude no smaller than `2^e`, relative to the magnitude. -/
theorem half_ulp_le (p : Nat) (e : Int) (a : ℚ) (h : (2 : ℚ) ^ e ≤ a) :
    (2 : ℚ) ^ (e - (p : Int)) ≤ a / 2 ^ p := by
  rw [zpow_sub₀ (by norm_num : (2 : ℚ) ≠ 0), zpow_natCast]
  exact div_le_div_of_nonneg_right h (by positivity)

/-- One rounding has error at most `2^-prec` relative plus half the spacing of the
subnormal numbers, as long as the magnitude with that error added is below the overflow
threshold. -/
theorem roundMag_abs (f : Format) (a : ℚ) (h0 : 0 ≤ a)
    (hhi : a + (a / 2 ^ f.prec + 2 ^ (f.emin - (f.prec : Int))) < 2 ^ ((f.emax : Int) + 1)) :
    ∃ r, f.roundMag a = some r ∧ |r - a| ≤ a / 2 ^ f.prec + 2 ^ (f.emin - (f.prec : Int)) := by
  rcases eq_or_lt_of_le h0 with h | ha
  · subst h
    refine ⟨0, roundMag_zero f, ?_⟩
    simp only [sub_zero, abs_zero, zero_div, zero_add]
    positivity
  have hη : (0 : ℚ) < 2 ^ (f.emin - (f.prec : Int)) := by positivity
  have hrel : (0 : ℚ) ≤ a / 2 ^ f.prec := by positivity
  apply roundMag_core
  · rcases le_total (ilog2 a) f.emin with h | h
    · rw [max_eq_right h]; linarith
    · rw [max_eq_left h]
      have := half_ulp_le f.prec (ilog2 a) a (ilog2_le a ha)
      linarith
  · exact hhi

theorem roundMag_nonneg (f : Format) (a r : ℚ) (h0 : 0 ≤ a) (h : f.roundMag a = some r) :
    0 ≤ r := by
  rw [roundMag_eq] at h
  split_ifs at h
  injection h with h
  rw [← h]
  exact mul_nonneg (rne_nonneg _ (by positivity)) (by positivity)

/-- Rounding overflows from `2^(emax+1)` on. -/
theorem roundMag_overflow (f : Format) (hp : 1 ≤ f.prec) (a : ℚ)
    (h : (2 : ℚ) ^ ((f.emax : Int) + 1) ≤ a) : f.roundMag a = none := by
  have ha : 0 < a := lt_of_lt_of_le (by positivity) h
  have two_ne : (2 : ℚ) ≠ 0 := by norm_num
  have hil : (f.emax : Int) + 1 ≤ ilog2 a := by
    have h1 := ilog2_lt a ha
    have h2 : (2 : ℚ) ^ ((f.emax : Int) + 1) < 2 ^ (ilog2 a + 1) := lt_of_le_of_lt h h1
    have := (zpow_lt_zpow_iff_right₀ (by norm_num : (1 : ℚ) < 2)).mp h2
    omega
  have hemin : f.emin ≤ ilog2 a := by
    unfold Format.emin
    omega
  rw [roundMag_eq, if_neg]
  rw [not_lt, max_eq_left hemin]
  have hk2 : (0 : ℚ) < 2 ^ (ilog2 a - ((f.prec : Int) - 1)) := by positivity
  have hpk1 : (2 : ℚ) ^ (f.prec - 1) * 2 ^ (ilog2 a - ((f.prec : Int) - 1)) = 2 ^ ilog2 a := by
    rw [← zpow_natCast, ← zpow_add₀ two_ne, Nat.cast_sub hp]
    congr 1
    push_cast
    ring
  have hlow : ((2 : Int) ^ (f.prec - 1) : Int)
      ≤ rne (a / 2 ^ (ilog2 a - ((f.prec : Int) - 1))) := by
    apply le_rne_of_le
    rw [le_div_iff₀ hk2]
    push_cast
    rw [hpk1]
    exact ilog2_le a ha
  have hlowq : (2 : ℚ) ^ (f.prec - 1)
      ≤ ((rne (a / 2 ^ (ilog2 a - ((f.prec : Int) - 1))) : Int) : ℚ) := by
    exact_mod_cast hlow
  calc (2 : ℚ) ^ ((f.emax : Int) + 1) ≤ 2 ^ ilog2 a := zpow_le_zpow_right₀ (by norm_num) hil
    _ = (2 : ℚ) ^ (f.prec - 1) * 2 ^ (ilog2 a - ((f.prec : Int) - 1)) := hpk1.symm
    _ ≤ _ := mul_le_mul_of_nonneg_right hlowq (le_of_lt hk2)

/-! ## The numbers of a format -/

theorem Format.Representable.nonneg {f : Format} {q : ℚ} (h : f.Representable q) : 0 ≤ q := by
  obtain ⟨m, k, _, _, _, rfl⟩ := h
  positivity

theorem representable_zero (f : Format) (he : 1 ≤ f.emax) : f.Representable 0 := by
  refine ⟨0, f.emin - ((f.prec : Int) - 1), by positivity, le_refl _, ?_, by simp⟩
  unfold Format.emin
  omega

/-- A number of the format is below `2^(emax+1)`. -/
theorem Format.Representable.lt_top {f : Format} {q : ℚ}
    (h : f.Representable q) : q < 2 ^ ((f.emax : Int) + 1) := by
  obtain ⟨m, k, hm, _, hk, rfl⟩ := h
  have two_ne : (2 : ℚ) ≠ 0 := by norm_num
  have hmq : (m : ℚ) < 2 ^ f.prec := by exact_mod_cast hm
  have hk2 : (0 : ℚ) < 2 ^ k := by positivity
  calc (m : ℚ) * 2 ^ k < 2 ^ f.prec * 2 ^ k := mul_lt_mul_of_pos_right hmq hk2
    _ = 2 ^ ((f.prec : Int) + k) := by rw [← zpow_natCast, ← zpow_add₀ two_ne]
    _ ≤ 2 ^ ((f.emax : Int) + 1) := zpow_le_zpow_right₀ (by norm_num) (by omega)

/-- A number of the format other than zero is at least the smallest subnormal number. -/
theorem Format.Representable.ge_bot {f : Format} {q : ℚ} (h : f.Representable q)
    (hq : q ≠ 0) : 2 ^ (f.emin - ((f.prec : Int) - 1)) ≤ q := by
  obtain ⟨m, k, _, hk, _, rfl⟩ := h
  have hm0 : m ≠ 0 := by
    intro h0
    apply hq
    rw [h0]
    simp
  have hm1 : (1 : ℚ) ≤ (m : ℚ) := by exact_mod_cast Nat.one_le_iff_ne_zero.mpr hm0
  have hk2 : (0 : ℚ) < 2 ^ k := by positivity
  calc (2 : ℚ) ^ (f.emin - ((f.prec : Int) - 1)) ≤ 2 ^ k :=
        zpow_le_zpow_right₀ (by norm_num) hk
    _ = 1 * 2 ^ k := by rw [one_mul]
    _ ≤ (m : ℚ) * 2 ^ k := mul_le_mul_of_nonneg_right hm1 (le_of_lt hk2)

/-- What rounding returns is a number of the format. -/
theorem roundMag_representable (f : Format) (hp : 1 ≤ f.prec) (he : 1 ≤ f.emax) (a r : ℚ)
    (h0 : 0 ≤ a) (h : f.roundMag a = some r) : f.Representable r := by
  rcases eq_or_lt_of_le h0 with hz | ha
  · subst hz
    rw [roundMag_zero] at h
    injection h with h
    rw [← h]
    exact representable_zero f he
  rw [roundMag_eq] at h
  split_ifs at h with hov
  injection h with h
  have hemin : f.emin ≤ max (ilog2 a) f.emin := le_max_right _ _
  have hilog : ilog2 a ≤ max (ilog2 a) f.emin := le_max_left _ _
  have hmax : max (ilog2 a) f.emin = ilog2 a ∨ max (ilog2 a) f.emin = f.emin := by
    rcases le_total (ilog2 a) f.emin with h | h
    · right; exact max_eq_right h
    · left; exact max_eq_left h
  generalize max (ilog2 a) f.emin = e at h hov hemin hilog hmax
  have hk2 : (0 : ℚ) < 2 ^ (e - ((f.prec : Int) - 1)) := by positivity
  have two_ne : (2 : ℚ) ≠ 0 := by norm_num
  have hpk : (2 : ℚ) ^ f.prec * 2 ^ (e - ((f.prec : Int) - 1)) = 2 ^ (e + 1) := by
    rw [← zpow_natCast, ← zpow_add₀ two_ne]
    congr 1
    ring
  have hpk1 : (2 : ℚ) ^ (f.prec - 1) * 2 ^ (e - ((f.prec : Int) - 1)) = 2 ^ e := by
    rw [← zpow_natCast, ← zpow_add₀ two_ne, Nat.cast_sub hp]
    congr 1
    push_cast
    ring
  have hn0 : (0 : Int) ≤ rne (a / 2 ^ (e - ((f.prec : Int) - 1))) :=
    Int.cast_nonneg.mp (rne_nonneg _ (by positivity))
  have hup : a / 2 ^ (e - ((f.prec : Int) - 1)) < (((2 : Int) ^ f.prec : Int) : ℚ) := by
    rw [div_lt_iff₀ hk2]
    push_cast
    rw [hpk]
    calc a < 2 ^ (ilog2 a + 1) := ilog2_lt a ha
      _ ≤ 2 ^ (e + 1) := zpow_le_zpow_right₀ (by norm_num) (by omega)
  have hnle := rne_le_of_lt _ _ hup
  have hlow : (2 : ℚ) ^ e ≤ a →
      ((2 : Int) ^ (f.prec - 1) : Int) ≤ rne (a / 2 ^ (e - ((f.prec : Int) - 1))) := by
    intro hlo
    apply le_rne_of_le
    rw [le_div_iff₀ hk2]
    push_cast
    rw [hpk1]
    exact hlo
  generalize rne (a / 2 ^ (e - ((f.prec : Int) - 1))) = n at h hov hn0 hnle hlow ⊢
  rcases eq_or_lt_of_le hnle with heq | hlt
  · subst heq
    push_cast at hov h
    rw [hpk] at hov h
    have hlt : e + 1 < (f.emax : Int) + 1 :=
      (zpow_lt_zpow_iff_right₀ (by norm_num : (1 : ℚ) < 2)).mp hov
    refine ⟨2 ^ (f.prec - 1), e - ((f.prec : Int) - 1) + 1, ?_, by omega, by omega, ?_⟩
    · exact Nat.pow_lt_pow_right (by norm_num) (by omega)
    · rw [← h]
      push_cast
      rw [show (2 : ℚ) ^ (e + 1) = 2 ^ e * 2 by rw [zpow_add₀ two_ne, zpow_one],
        show (2 : ℚ) ^ (e - ((f.prec : Int) - 1) + 1) = 2 ^ (e - ((f.prec : Int) - 1)) * 2 by
          rw [zpow_add₀ two_ne, zpow_one],
        ← mul_assoc, hpk1]
  · obtain ⟨m, rfl⟩ := Int.eq_ofNat_of_zero_le hn0
    have hmlt : m < 2 ^ f.prec := by exact_mod_cast hlt
    refine ⟨m, e - ((f.prec : Int) - 1), hmlt, by omega, ?_, ?_⟩
    · by_contra hc
      have hgt : (f.emax : Int) < e := by omega
      have hemm : f.emin ≤ (f.emax : Int) := by
        unfold Format.emin
        omega
      have he_eq : e = ilog2 a := by
        rcases hmax with h1 | h1
        · exact h1
        · omega
      have hlo : (2 : ℚ) ^ e ≤ a := by
        rw [he_eq]
        exact ilog2_le a ha
      have hge : ((2 : Int) ^ (f.prec - 1) : Int) ≤ (m : Int) := hlow hlo
      have hgeq : (2 : ℚ) ^ (f.prec - 1) ≤ (m : ℚ) := by exact_mod_cast hge
      have h1 : (2 : ℚ) ^ e ≤ (m : ℚ) * 2 ^ (e - ((f.prec : Int) - 1)) := by
        rw [← hpk1]
        exact mul_le_mul_of_nonneg_right hgeq (le_of_lt hk2)
      have h2 : (2 : ℚ) ^ ((f.emax : Int) + 1) ≤ 2 ^ e :=
        zpow_le_zpow_right₀ (by norm_num) (by omega)
      push_cast at hov
      linarith
    · rw [← h]
      push_cast
      rfl

/-- Rounding returns a number of the format unchanged. -/
theorem roundMag_of_representable (f : Format) (q : ℚ) (h : f.Representable q) :
    f.roundMag q = some q := by
  have hlt := h.lt_top
  have h0 := h.nonneg
  obtain ⟨m, k0, hm, hk0, hk1, rfl⟩ := h
  rcases eq_or_lt_of_le h0 with hz | hpos
  · rw [← hz]
    exact roundMag_zero f
  have two_ne : (2 : ℚ) ≠ 0 := by norm_num
  have hmq : (m : ℚ) < 2 ^ f.prec := by exact_mod_cast hm
  have hk2 : (0 : ℚ) < 2 ^ k0 := by positivity
  have hil : ilog2 ((m : ℚ) * 2 ^ k0) - ((f.prec : Int) - 1) ≤ k0 := by
    have h1 := ilog2_le _ hpos
    have h2 : (m : ℚ) * 2 ^ k0 < 2 ^ ((f.prec : Int) + k0) := by
      rw [zpow_add₀ two_ne, zpow_natCast]
      exact mul_lt_mul_of_pos_right hmq hk2
    have h3 := lt_of_le_of_lt h1 h2
    have := (zpow_lt_zpow_iff_right₀ (by norm_num : (1 : ℚ) < 2)).mp h3
    omega
  have hk : max (ilog2 ((m : ℚ) * 2 ^ k0)) f.emin - ((f.prec : Int) - 1) ≤ k0 := by
    rcases le_total (ilog2 ((m : ℚ) * 2 ^ k0)) f.emin with h | h
    · rw [max_eq_right h]; exact hk0
    · rw [max_eq_left h]; exact hil
  rw [roundMag_eq]
  generalize max (ilog2 ((m : ℚ) * 2 ^ k0)) f.emin - ((f.prec : Int) - 1) = k at hk ⊢
  obtain ⟨n, hn⟩ := Int.eq_ofNat_of_zero_le (sub_nonneg.mpr hk)
  have hk0' : k0 = k + (n : Int) := by omega
  have hdiv : (m : ℚ) * 2 ^ k0 / 2 ^ k = (((m * 2 ^ n : Nat) : Int) : ℚ) := by
    rw [hk0', zpow_add₀ two_ne, zpow_natCast]
    push_cast
    field_simp
    ring
  have hback : ((((m * 2 ^ n : Nat) : Int) : ℚ)) * 2 ^ k = (m : ℚ) * 2 ^ k0 := by
    rw [hk0', zpow_add₀ two_ne, zpow_natCast]
    push_cast
    ring
  rw [hdiv, rne_intCast, hback, if_pos hlt]

/-- A finite double is a number of the x87 double-extended format. -/
theorem representable_x87_of_double (q : ℚ) (h : binary64.Representable q) :
    x87ext.Representable q := by
  obtain ⟨m, k, hm, hk0, hk1, rfl⟩ := h
  refine ⟨m, k, ?_, ?_, ?_, rfl⟩
  · exact lt_trans hm (by decide)
  · have e : binary64.emin - (((binary64.prec : Nat) : Int) - 1) = -1074 := by decide
    have e2 : x87ext.emin - (((x87ext.prec : Nat) : Int) - 1) = -16445 := by decide
    rw [e] at hk0
    rw [e2]
    omega
  · have e : ((binary64.emax : Nat) : Int) - (((binary64.prec : Nat) : Int) - 1) = 971 := by
      decide
    have e2 : ((x87ext.emax : Nat) : Int) - (((x87ext.prec : Nat) : Int) - 1) = 16320 := by
      decide
    rw [e] at hk1
    rw [e2]
    omega

/-- The magnitude of a finite double is below `2^1024` and, unless it is zero, at least
`2^-1074`. -/
theorem representable64_bounds (q : ℚ) (h : binary64.Representable q) :
    q ≤ 2 ^ 1024 ∧ (q ≠ 0 → 1 / 2 ^ 1074 ≤ q) := by
  constructor
  · have h1 := h.lt_top
    have e : ((binary64.emax : Nat) : Int) + 1 = ((1024 : Nat) : Int) := by decide
    rw [e, zpow_natCast] at h1
    exact le_of_lt h1
  · intro hq
    have h1 := h.ge_bot hq
    have e : binary64.emin - (((binary64.prec : Nat) : Int) - 1) = -((1074 : Nat) : Int) := by
      decide
    rw [e, zpow_neg, zpow_natCast, ← one_div] at h1
    exact h1

/-- A finite double of magnitude at least `2^e` is a multiple of `2^(e-52)`. -/
theorem representable64_grid (q : ℚ) (h : binary64.Representable q) (e : Int)
    (he : (2 : ℚ) ^ e ≤ q) : ∃ N : Nat, q = (N : ℚ) * 2 ^ (e - 52) := by
  obtain ⟨m, k, hm, _, _, rfl⟩ := h
  have two_ne : (2 : ℚ) ≠ 0 := by norm_num
  have hmq : (m : ℚ) < 2 ^ (53 : Nat) := by exact_mod_cast hm
  have hk2 : (0 : ℚ) < 2 ^ k := by positivity
  have hlt : (2 : ℚ) ^ e < 2 ^ ((53 : Int) + k) := by
    rw [zpow_add₀ two_ne]
    calc (2 : ℚ) ^ e ≤ (m : ℚ) * 2 ^ k := he
      _ < 2 ^ (53 : Nat) * 2 ^ k := mul_lt_mul_of_pos_right hmq hk2
      _ = 2 ^ (53 : Int) * 2 ^ k := by norm_cast
  have hek : e < 53 + k := (zpow_lt_zpow_iff_right₀ (by norm_num : (1 : ℚ) < 2)).mp hlt
  obtain ⟨n, hn⟩ := Int.eq_ofNat_of_zero_le (show (0 : Int) ≤ k - (e - 52) by omega)
  refine ⟨m * 2 ^ n, ?_⟩
  have hk' : k = (n : Int) + (e - 52) := by omega
  rw [hk', zpow_add₀ two_ne, zpow_natCast]
  push_cast
  ring

/-! ## The operations of `double` on finite operands -/

/-- Rounding a magnitude of at most `2^1024 - 2^972` to binary64 gives a finite number. -/
theorem round64 (neg : Bool) (a : ℚ) (h0 : 0 ≤ a) (hhi : a ≤ 2 ^ 1024 - 2 ^ 972) :
    ∃ r, 0 ≤ r ∧ IEEE.round binary64 neg a = IEEE.fin neg r
      ∧ |r - a| ≤ a / 2 ^ 53 + 1 / 2 ^ 1075 := by
  have e : (2 : ℚ) ^ (binary64.emin - ((binary64.prec : Nat) : Int)) = 1 / 2 ^ 1075 := by
    have : binary64.emin - ((binary64.prec : Nat) : Int) = -((1075 : Nat) : Int) := by decide
    rw [this, zpow_neg, zpow_natCast, one_div]
  have e2 : (2 : ℚ) ^ (((binary64.emax : Nat) : Int) + 1) = 2 ^ 1024 := by
    have : ((binary64.emax : Nat) : Int) + 1 = ((1024 : Nat) : Int) := by decide
    rw [this, zpow_natCast]
  have e3 : (2 : ℚ) ^ binary64.prec = 2 ^ 53 := rfl
  have hov : a + (a / 2 ^ binary64.prec + 2 ^ (binary64.emin - ((binary64.prec : Nat) : Int)))
      < 2 ^ (((binary64.emax : Nat) : Int) + 1) := by
    rw [e, e2, e3]
    linarith
  obtain ⟨r, hr, herr⟩ := roundMag_abs binary64 a h0 hov
  refine ⟨r, roundMag_nonneg _ _ _ h0 hr, ?_, ?_⟩
  · unfold IEEE.round
    rw [hr]
  · rw [e, e3] at herr
    exact herr

/-- A magnitude of `2^1024` or more rounds to an infinity in binary64. -/
theorem round64_overflow (neg : Bool) (a : ℚ) (h : 2 ^ 1024 ≤ a) :
    IEEE.round binary64 neg a = IEEE.inf neg := by
  have h2 : (2 : ℚ) ^ (((binary64.emax : Nat) : Int) + 1) ≤ a := by
    have e : ((binary64.emax : Nat) : Int) + 1 = ((1024 : Nat) : Int) := by decide
    rw [e, zpow_natCast]
    exact h
  unfold IEEE.round
  rw [roundMag_overflow binary64 (by decide) a h2]

theorem mul64 (s t : Bool) (m n : ℚ) (hm : 0 ≤ m) (hn : 0 ≤ n)
    (h : m * n ≤ 2 ^ 1024 - 2 ^ 972) :
    ∃ r, 0 ≤ r ∧ IEEE.mul (IEEE.fin s m : F64) (IEEE.fin t n) = IEEE.fin (xor s t) r
      ∧ |r - m * n| ≤ m * n / 2 ^ 53 + 1 / 2 ^ 1075 :=
  round64 (xor s t) (m * n) (mul_nonneg hm hn) h

theorem div64 (s t : Bool) (m n : ℚ) (hm : 0 ≤ m) (hn : 0 < n)
    (h : m / n ≤ 2 ^ 1024 - 2 ^ 972) :
    ∃ r, 0 ≤ r ∧ IEEE.div (IEEE.fin s m : F64) (IEEE.fin t n) = IEEE.fin (xor s t) r
      ∧ |r - m / n| ≤ m / n / 2 ^ 53 + 1 / 2 ^ 1075 := by
  obtain ⟨r, h1, h2, h3⟩ := round64 (xor s t) (m / n) (div_nonneg hm (le_of_lt hn)) h
  refine ⟨r, h1, ?_, h3⟩
  unfold IEEE.div
  simp only [if_neg (ne_of_gt hn)]
  exact h2

theorem add64 (s t : Bool) (m n : ℚ)
    (h : |IEEE.signed s m + IEEE.signed t n| ≤ 2 ^ 1024 - 2 ^ 972) :
    ∃ s' r, 0 ≤ r ∧ IEEE.add (IEEE.fin s m : F64) (IEEE.fin t n) = IEEE.fin s' r
      ∧ |IEEE.signed s' r - (IEEE.signed s m + IEEE.signed t n)|
          ≤ |IEEE.signed s m + IEEE.signed t n| / 2 ^ 53 + 1 / 2 ^ 1075 := by
  unfold IEEE.add
  simp only
  generalize IEEE.signed s m + IEEE.signed t n = v at h ⊢
  split_ifs with hv
  · refine ⟨s && t, 0, le_refl 0, rfl, ?_⟩
    rw [hv]
    simp [IEEE.signed]
  · obtain ⟨r, h1, h2, h3⟩ := round64 (decide (v < 0)) |v| (abs_nonneg _) h
    refine ⟨_, r, h1, h2, ?_⟩
    by_cases hneg : v < 0
    · simp only [hneg, decide_True, IEEE.signed, if_true]
      rw [abs_of_neg hneg] at h3 ⊢
      rw [show -r - v = -(r - -v) by ring, abs_neg]
      exact h3
    · simp only [hneg, decide_False, IEEE.signed]
      rw [abs_of_nonneg (not_lt.mp hneg)] at h3 ⊢
      exact h3

theorem IEEE.round_of_representable (f : Format) (s : Bool) (q : ℚ) (h : f.Representable q) :
    IEEE.round f s q = IEEE.fin s q := by
  unfold IEEE.round
  rw [roundMag_of_representable f q h]

/-- A literal whose value is a double is read as that double, as a `double` and as an x87
`long double` alike, and the conversion of the latter to `double` is exact. -/
theorem lit_of_representable (v : ℚ) (h : binary64.Representable |v|) :
    lit v = IEEE.fin (decide (v < 0)) |v| ∧ litl v = IEEE.fin (decide (v < 0)) |v|
      ∧ (StaticCast.cast (litl v) : F64) = lit v := by
  have h1 : lit v = IEEE.fin (decide (v < 0)) |v| := IEEE.round_of_representable _ _ _ h
  have h2 : litl v = IEEE.fin (decide (v < 0)) |v| :=
    IEEE.round_of_representable _ _ _ (representable_x87_of_double _ h)
  refine ⟨h1, h2, ?_⟩
  rw [h2, h1]
  exact IEEE.round_of_representable _ _ _ h

/-! ## The comparisons of `double` -/

/-- Off NaN, `x <= y` is the negation of `x > y`. -/
theorem IEEE.not_gt_eq_le {f : Format} (x y : IEEE f) (hx : x ≠ IEEE.nan) (hy : y ≠ IEEE.nan) :
    (!(IEEE.gt x y)) = IEEE.le x y := by
  cases x with
  | nan => exact absurd rfl hx
  | inf s =>
    cases y with
    | nan => exact absurd rfl hy
    | inf t => cases s <;> cases t <;> rfl
    | fin t n => cases s <;> rfl
  | fin s m =>
    cases y with
    | nan => exact absurd rfl hy
    | inf t => cases t <;> rfl
    | fin t n =>
      simp only [IEEE.gt, IEEE.le, IEEE.lt, IEEE.eq]
      rcases lt_trichotomy (IEEE.signed s m) (IEEE.signed t n) with h | h | h
      · simp [h, not_lt.mpr (le_of_lt h)]
      · simp [h]
      · simp [h, not_lt.mpr (le_of_lt h), ne_of_gt h]

theorem IEEE.signed_true (a : ℚ) : IEEE.signed true a = -a := rfl

theorem IEEE.signed_false (a : ℚ) : IEEE.signed false a = a := rfl

theorem IEEE.signed_abs_sub (s : Bool) (a b c : ℚ) :
    |IEEE.signed s a - IEEE.signed s b * c| = |a - b * c| := by
  cases s
  · rfl
  · simp only [IEEE.signed_true]
    rw [show -a - -b * c = -(a - b * c) by ring, abs_neg]

/-- A finite datum with a non-negative magnitude and a positive value has the sign bit
clear. -/
theorem IEEE.signed_pos_sign (s : Bool) (q : ℚ) (hq : 0 ≤ q) (h : 0 < IEEE.signed s q) :
    s = false := by
  cases s
  · rfl
  · rw [IEEE.signed_true] at h
    linarith

/-- Doubles in strict order are unequal, in both directions. -/
theorem IEEE.eq_false_of_lt {f : Format} (x y : IEEE f) (h : IEEE.lt x y = true) :
    IEEE.eq x y = false ∧ IEEE.eq y x = false := by
  cases x with
  | nan => simp [IEEE.lt] at h
  | inf s =>
    cases y with
    | nan => simp [IEEE.lt] at h
    | inf t => cases s <;> cases t <;> simp [IEEE.lt, IEEE.eq] at h ⊢
    | fin t n => simp [IEEE.eq]
  | fin s m =>
    cases y with
    | nan => simp [IEEE.lt] at h
    | inf t => simp [IEEE.eq]
    | fin t n =>
      simp only [IEEE.lt, decide_eq_true_eq] at h
      simp only [IEEE.eq, decide_eq_false_iff_not]
      exact ⟨ne_of_lt h, ne_of_gt h⟩

/-- A datum that compares equal to two finite data makes their values equal. -/
theorem IEEE.eq_eq_fin {f : Format} (z : IEEE f) (s1 s2 : Bool) (q1 q2 : ℚ)
    (h1 : IEEE.eq z (IEEE.fin s1 q1) = true) (h2 : IEEE.eq z (IEEE.fin s2 q2) = true) :
    IEEE.signed s1 q1 = IEEE.signed s2 q2 := by
  cases z with
  | nan => simp [IEEE.eq] at h1
  | inf s => simp [IEEE.eq] at h1
  | fin s q =>
    simp only [IEEE.eq, decide_eq_true_eq] at h1 h2
    rw [← h1, ← h2]

/-! ## The operations stay inside the format -/

theorem IEEE.round_valid (f : Format) (hp : 1 ≤ f.prec) (he : 1 ≤ f.emax) (s : Bool) (a : ℚ)
    (h0 : 0 ≤ a) : (IEEE.round f s a).Valid := by
  unfold IEEE.round
  cases h : f.roundMag a with
  | none => trivial
  | some r => exact roundMag_representable f hp he a r h0 h

theorem IEEE.ofRat_valid (f : Format) (hp : 1 ≤ f.prec) (he : 1 ≤ f.emax) (v : ℚ) :
    (IEEE.ofRat f v).Valid :=
  IEEE.round_valid f hp he _ _ (abs_nonneg v)

theorem IEEE.neg_valid {f : Format} (x : IEEE f) (hx : x.Valid) : (IEEE.neg x).Valid := by
  cases x <;> exact hx

theorem IEEE.mul_valid {f : Format} (hp : 1 ≤ f.prec) (he : 1 ≤ f.emax) (x y : IEEE f)
    (hx : x.Valid) (hy : y.Valid) : (IEEE.mul x y).Valid := by
  cases x with
  | nan => cases y <;> simp [IEEE.mul, IEEE.Valid]
  | inf s =>
    cases y with
    | nan => simp [IEEE.mul, IEEE.Valid]
    | inf t => simp [IEEE.mul, IEEE.Valid]
    | fin t n =>
      simp only [IEEE.mul]
      split_ifs <;> simp [IEEE.Valid]
  | fin s m =>
    cases y with
    | nan => simp [IEEE.mul, IEEE.Valid]
    | inf t =>
      simp only [IEEE.mul]
      split_ifs <;> simp [IEEE.Valid]
    | fin t n => exact IEEE.round_valid f hp he _ _ (mul_nonneg hx.nonneg hy.nonneg)

theorem IEEE.div_valid {f : Format} (hp : 1 ≤ f.prec) (he : 1 ≤ f.emax) (x y : IEEE f)
    (hx : x.Valid) (hy : y.Valid) : (IEEE.div x y).Valid := by
  cases x with
  | nan => cases y <;> simp [IEEE.div, IEEE.Valid]
  | inf s => cases y <;> simp [IEEE.div, IEEE.Valid]
  | fin s m =>
    cases y with
    | nan => simp [IEEE.div, IEEE.Valid]
    | inf t => exact representable_zero f he
    | fin t n =>
      simp only [IEEE.div]
      split_ifs
      · simp [IEEE.Valid]
      · simp [IEEE.Valid]
      · exact IEEE.round_valid f hp he _ _ (div_nonneg hx.nonneg hy.nonneg)

theorem IEEE.add_valid {f : Format} (hp : 1 ≤ f.prec) (he : 1 ≤ f.emax) (x y : IEEE f)
    (hx : x.Valid) (hy : y.Valid) : (IEEE.add x y).Valid := by
  cases x with
  | nan => cases y <;> simp [IEEE.add, IEEE.Valid]
  | inf s =>
    cases y with
    | nan => simp [IEEE.add, IEEE.Valid]
    | inf t =>
      simp only [IEEE.add]
      split_ifs <;> simp [IEEE.Valid]
    | fin t n => simp [IEEE.add, IEEE.Valid]
  | fin s m =>
    cases y with
    | nan => simp [IEEE.add, IEEE.Valid]
    | inf t => simp [IEEE.add, IEEE.Valid]
    | fin t n =>
      simp only [IEEE.add]
      split_ifs
      · exact representable_zero f he
      · exact IEEE.round_valid f hp he _ _ (abs_nonneg _)

theorem IEEE.sub_valid {f : Format} (hp : 1 ≤ f.prec) (he : 1 ≤ f.emax) (x y : IEEE f)
    (hx : x.Valid) (hy : y.Valid) : (IEEE.sub x y).Valid :=
  IEEE.add_valid hp he x (IEEE.neg y) hx (IEEE.neg_valid y hy)

/-- The model of `double` is closed: the literals are doubles, and every operation on
doubles returns a double. -/
theorem double_closed :
    (∀ v : ℚ, (lit v).Valid)
    ∧ (Scalar.zero : F64).Valid ∧ (Scalar.M_PI : F64).Valid ∧ (Scalar.c180 : F64).Valid
    ∧ (∀ x y : F64, x.Valid → y.Valid →
        (Scalar.add x y).Valid ∧ (Scalar.sub x y).Valid ∧ (Scalar.mul x y).Valid
        ∧ (Scalar.div x y).Valid ∧ (Scalar.neg x).Valid) := by
  have hp : 1 ≤ binary64.prec := by decide
  have he : 1 ≤ binary64.emax := by decide
  refine ⟨fun v => IEEE.ofRat_valid _ hp he v, representable_zero _ he,
    IEEE.ofRat_valid _ hp he _, IEEE.ofRat_valid _ hp he _, ?_⟩
  intro x y hx hy
  exact ⟨IEEE.add_valid hp he x y hx hy, IEEE.sub_valid hp he x y hx hy,
    IEEE.mul_valid hp he x y hx hy, IEEE.div_valid hp he x y hx hy, IEEE.neg_valid x hx⟩

/-- Known values of double arithmetic: `0.1`, `0.1 + 0.2`, `1.0 / 3.0`, overflow of
the largest double doubled, the ties `1 + 2^-53` and `2^-1074 / 2`, the signs of zero,
and the divisions by zero. -/
theorem double_known_values :
    lit (1 / 10) = IEEE.fin false (3602879701896397 / 36028797018963968)
    ∧ IEEE.add (lit (1 / 10)) (lit (2 / 10))
        = IEEE.fin false (1351079888211149 / 4503599627370496)
    ∧ IEEE.div (lit 1) (lit 3) = IEEE.fin false (6004799503160661 / 18014398509481984)
    ∧ lit ((2 ^ 53 - 1) * 2 ^ 971) = IEEE.fin false ((2 ^ 53 - 1) * 2 ^ 971)
    ∧ IEEE.mul (lit ((2 ^ 53 - 1) * 2 ^ 971)) (lit 2) = IEEE.inf false
    ∧ IEEE.add (lit 1) (lit (1 / 2 ^ 53)) = lit 1
    ∧ IEEE.add (lit 1) (lit (3 / 2 ^ 53)) = IEEE.fin false (1 + 1 / 2 ^ 51)
    ∧ IEEE.div (lit (1 / 2 ^ 1074)) (lit 2) = IEEE.fin false 0
    ∧ IEEE.add (lit 1) (lit (-1)) = IEEE.fin false 0
    ∧ IEEE.mul (lit (-1)) (lit 0) = IEEE.fin true 0
    ∧ IEEE.eq (IEEE.fin true 0 : F64) (IEEE.fin false 0) = true
    ∧ IEEE.div (lit 1) (lit 0) = IEEE.inf false
    ∧ IEEE.div (lit (-1)) (lit 0) = IEEE.inf true
    ∧ IEEE.div (lit 0) (lit 0) = IEEE.nan := by
  decide!

/-! ## More on the comparisons and on NaN -/

/-- The order `<` of the format is asymmetric. -/
theorem IEEE.lt_asymm {f : Format} (x y : IEEE f) (h : IEEE.lt x y = true) :
    IEEE.lt y x = false := by
  cases x with
  | nan => simp [IEEE.lt] at h
  | inf s =>
    cases y with
    | nan => simp [IEEE.lt] at h
    | inf t => cases s <;> cases t <;> simp [IEEE.lt] at h ⊢
    | fin t n =>
      simp only [IEEE.lt] at h ⊢
      simp [h]
  | fin s m =>
    cases y with
    | nan => simp [IEEE.lt] at h
    | inf t =>
      simp only [IEEE.lt] at h ⊢
      simpa using h
    | fin t n =>
      simp only [IEEE.lt, decide_eq_true_eq] at h
      simp only [IEEE.lt, decide_eq_false_iff_not]
      exact not_lt.mpr (le_of_lt h)

/-- Every datum but NaN compares equal to itself. -/
theorem IEEE.eq_self {f : Format} (x : IEEE f) (h : x ≠ IEEE.nan) : IEEE.eq x x = true := by
  cases x with
  | nan => exact absurd rfl h
  | inf s => simp [IEEE.eq]
  | fin s m => simp [IEEE.eq]

/-- NaN compares equal to nothing. -/
theorem IEEE.eq_nan {f : Format} (x : IEEE f) :
    IEEE.eq IEEE.nan x = false ∧ IEEE.eq x IEEE.nan = false := by
  cases x <;> simp [IEEE.eq]

/-- NaN is neither below nor above anything. -/
theorem IEEE.lt_nan {f : Format} (x : IEEE f) :
    IEEE.lt IEEE.nan x = false ∧ IEEE.lt x IEEE.nan = false := by
  cases x <;> simp [IEEE.lt]

theorem IEEE.round_ne_nan (f : Format) (s : Bool) (a : ℚ) : IEEE.round f s a ≠ IEEE.nan := by
  unfold IEEE.round
  cases f.roundMag a <;> simp

/-! ## Degrees to radians and back in double precision -/

theorem M_PI_F64 : (Scalar.M_PI : F64) = IEEE.fin false piD := by decide!

theorem c180_F64 : (Scalar.c180 : F64) = IEEE.fin false 180 := by decide!

/-- In double precision `from_degrees` of a finite value whose product with `M_PI` does not
overflow keeps its sign and stores `q * M_PI / 180` up to two roundings. -/
theorem from_degrees64 (s : Bool) (q : ℚ) (h0 : 0 ≤ q) (hq : q * piD ≤ 2 ^ 1024 - 2 ^ 972) :
    ∃ r, 0 ≤ r ∧ AngleT.from_degrees (IEEE.fin s q : F64) = { radians := IEEE.fin s r }
      ∧ |r - q * piD / 180| ≤ q * piD / 180 * (3 / 2 ^ 53) + 2 / 2 ^ 1075 := by
  have hP : piD = 884279719003555 / 281474976710656 := rfl
  have hq0 : 0 ≤ q * piD := mul_nonneg h0 (by rw [hP]; norm_num)
  obtain ⟨t, ht0, ht, hte⟩ := mul64 s false q piD h0 (by rw [hP]; norm_num) hq
  have hte' := abs_le.mp hte
  obtain ⟨r, hr0, hr, hre⟩ := div64 s false t 180 ht0 (by norm_num)
    (by linarith [hte'.2])
  have hre' := abs_le.mp hre
  refine ⟨r, hr0, ?_, ?_⟩
  · show ({ radians := IEEE.div (IEEE.mul (IEEE.fin s q) Scalar.M_PI) Scalar.c180 } : Angle) = _
    rw [M_PI_F64, c180_F64, ht, Bool.xor_false, hr, Bool.xor_false]
  · rw [abs_le]
    constructor <;> linarith [hte'.1, hte'.2, hre'.1, hre'.2]

/-- In double precision `get_degrees` of a finite radians value whose product with `180`
does not overflow keeps its sign and returns `r * 180 / M_PI` up to two roundings. -/
theorem get_degrees64 (s : Bool) (r : ℚ) (h0 : 0 ≤ r) (hr : r * 180 ≤ 2 ^ 1024 - 2 ^ 972) :
    ∃ d, 0 ≤ d ∧ AngleT.get_degrees ({ radians := IEEE.fin s r } : Angle) = IEEE.fin s d
      ∧ |d - r * 180 / piD| ≤ r * 180 / piD * (3 / 2 ^ 53) + 2 / 2 ^ 1075 := by
  have hP : piD = 884279719003555 / 281474976710656 := rfl
  obtain ⟨t, ht0, ht, hte⟩ := mul64 s false r 180 h0 (by norm_num) hr
  have hte' := abs_le.mp hte
  obtain ⟨d, hd0, hd, hde⟩ := div64 s false t piD ht0 (by rw [hP]; norm_num)
    (by rw [hP]; linarith [hte'.2])
  have hde' := abs_le.mp hde
  refine ⟨d, hd0, ?_, ?_⟩
  · show IEEE.div (IEEE.mul (IEEE.fin s r) Scalar.c180) Scalar.M_PI = _
    rw [M_PI_F64, c180_F64, ht, Bool.xor_false, hd, Bool.xor_false]
  · rw [hP] at hde' ⊢
    rw [abs_le]
    constructor <;> linarith [hte'.1, hte'.2, hde'.1, hde'.2]

/-- In double precision `from_degrees` of a finite value whose product with `M_PI` is
`2^1024` or more stores the infinity of its sign. -/
theorem from_degrees64_overflow (s : Bool) (q : ℚ) (h : 2 ^ 1024 ≤ q * piD) :
    AngleT.from_degrees (IEEE.fin s q : F64) = { radians := IEEE.inf s } := by
  show ({ radians := IEEE.div (IEEE.mul (IEEE.fin s q) Scalar.M_PI) Scalar.c180 } : Angle) = _
  rw [M_PI_F64, c180_F64]
  simp only [IEEE.mul]
  rw [round64_overflow _ _ h]
  simp [IEEE.div]

/-- In double precision `get_degrees` of an infinite radians value is that infinity. -/
theorem get_degrees64_inf (s : Bool) :
    AngleT.get_degrees ({ radians := IEEE.inf s } : Angle) = IEEE.inf s := by
  cases s <;> decide!

/-- In double precision `from_degrees` of anything but NaN stores something other than
NaN. -/
theorem from_degrees_ne_nan (x : F64) (h : x ≠ IEEE.nan) :
    (AngleT.from_degrees x).radians ≠ IEEE.nan := by
  show IEEE.div (IEEE.mul x Scalar.M_PI) Scalar.c180 ≠ IEEE.nan
  rw [M_PI_F64, c180_F64]
  have hP : piD ≠ 0 := by unfold piD; norm_num
  cases x with
  | nan => exact absurd rfl h
  | inf s => simp [IEEE.mul, IEEE.div, hP]
  | fin s q =>
    simp only [IEEE.mul]
    cases hr : IEEE.round binary64 (xor s false) (q * piD) with
    | nan => exact absurd hr (IEEE.round_ne_nan _ _ _)
    | inf t => simp [IEEE.div]
    | fin t r =>
      simp only [IEEE.div]
      rw [if_neg (by norm_num)]
      exact IEEE.round_ne_nan _ _ _

/-- The two zeros apart, `from_degrees` of finite doubles at least one degree apart and of
magnitude at most `2^50` gives radians values that differ. -/
theorem from_degrees64_separated (s1 s2 : Bool) (q1 q2 : ℚ) (h1 : 0 ≤ q1) (h2 : 0 ≤ q2)
    (hq1 : q1 ≤ 2 ^ 50) (hq2 : q2 ≤ 2 ^ 50)
    (hsep : IEEE.signed s1 q1 + 1 ≤ IEEE.signed s2 q2) :
    AngleT.operator_lt (AngleT.from_degrees (IEEE.fin s1 q1 : F64))
        (AngleT.from_degrees (IEEE.fin s2 q2)) = true := by
  have hP : piD = 884279719003555 / 281474976710656 := rfl
  obtain ⟨r1, hr1, e1, b1⟩ := from_degrees64 s1 q1 h1 (by rw [hP]; linarith)
  obtain ⟨r2, hr2, e2, b2⟩ := from_degrees64 s2 q2 h2 (by rw [hP]; linarith)
  rw [e1, e2]
  rw [hP] at b1 b2
  have b1' := abs_le.mp b1
  have b2' := abs_le.mp b2
  show IEEE.lt (IEEE.fin s1 r1 : F64) (IEEE.fin s2 r2) = true
  simp only [IEEE.lt, decide_eq_true_eq]
  cases s1 <;> cases s2 <;> simp only [IEEE.signed_true, IEEE.signed_false] at hsep ⊢ <;>
    linarith [b1'.1, b1'.2, b2'.1, b2'.2]

/-- The sum in double precision of two finite radians values that came from the degrees
values `x` and `y`, read back in degrees. -/
theorem add_get_degrees64 (sx sy : Bool) (x y rx ry : ℚ) (hx : 0 ≤ x) (hy : 0 ≤ y)
    (hsum : (x + y) * piD ≤ 2 ^ 1024 - 2 ^ 974) (hrx : 0 ≤ rx) (hry : 0 ≤ ry)
    (bx : |rx - x * piD / 180| ≤ x * piD / 180 * (3 / 2 ^ 53) + 2 / 2 ^ 1075)
    (bY : |ry - y * piD / 180| ≤ y * piD / 180 * (3 / 2 ^ 53) + 2 / 2 ^ 1075) :
    ∃ s d, AngleT.get_degrees
        ({ radians := IEEE.add (IEEE.fin sx rx) (IEEE.fin sy ry) } : Angle) = IEEE.fin s d
      ∧ |IEEE.signed s d - (IEEE.signed sx x + IEEE.signed sy y)|
          ≤ (x + y) / 2 ^ 50 + 1 / 2 ^ 1066 := by
  have hP : piD = 884279719003555 / 281474976710656 := rfl
  have hV : |IEEE.signed sx rx + IEEE.signed sy ry| ≤ rx + ry := by
    rw [abs_le]
    cases sx <;> cases sy <;> simp only [IEEE.signed_true, IEEE.signed_false] <;>
      constructor <;> linarith
  have bx1 := abs_le.mp bx
  have bY1 := abs_le.mp bY
  rw [hP] at bx1 bY1 hsum
  have hV2 : |IEEE.signed sx rx + IEEE.signed sy ry| ≤ 2 ^ 1024 - 2 ^ 972 := by
    linarith [bx1.2, bY1.2]
  obtain ⟨s, rs, hrs0, hadd, bs⟩ := add64 sx sy rx ry hV2
  have bs' := abs_le.mp bs
  have hrs : rs ≤ |IEEE.signed sx rx + IEEE.signed sy ry|
      + (|IEEE.signed sx rx + IEEE.signed sy ry| / 2 ^ 53 + 1 / 2 ^ 1075) := by
    have hA := le_abs_self (IEEE.signed sx rx + IEEE.signed sy ry)
    have hB := neg_abs_le (IEEE.signed sx rx + IEEE.signed sy ry)
    cases s <;> simp only [IEEE.signed_true, IEEE.signed_false] at bs' <;>
      linarith [bs'.1, bs'.2]
  have hrs2 : rs * 180 ≤ 2 ^ 1024 - 2 ^ 972 := by linarith [bx1.2, bY1.2]
  obtain ⟨d, _, hd, bd⟩ := get_degrees64 s rs hrs0 hrs2
  refine ⟨s, d, by rw [hadd, hd], ?_⟩
  have BX : |IEEE.signed sx rx - IEEE.signed sx x * (piD / 180)|
      ≤ x * piD / 180 * (3 / 2 ^ 53) + 2 / 2 ^ 1075 := by
    rw [IEEE.signed_abs_sub, show x * (piD / 180) = x * piD / 180 by ring]
    exact bx
  have BY : |IEEE.signed sy ry - IEEE.signed sy y * (piD / 180)|
      ≤ y * piD / 180 * (3 / 2 ^ 53) + 2 / 2 ^ 1075 := by
    rw [IEEE.signed_abs_sub, show y * (piD / 180) = y * piD / 180 by ring]
    exact bY
  have BD : |IEEE.signed s d - IEEE.signed s rs * (180 / piD)|
      ≤ rs * 180 / piD * (3 / 2 ^ 53) + 2 / 2 ^ 1075 := by
    rw [IEEE.signed_abs_sub, show rs * (180 / piD) = rs * 180 / piD by ring]
    exact bd
  rw [hP] at BX BY BD
  have BX' := abs_le.mp BX
  have BY' := abs_le.mp BY
  have BD' := abs_le.mp BD
  generalize IEEE.signed sx rx = Rx at *
  generalize IEEE.signed sy ry = Ry at *
  generalize IEEE.signed sx x = X at *
  generalize IEEE.signed sy y = Y at *
  generalize IEEE.signed s rs = S at *
  generalize IEEE.signed s d = D at *
  generalize |Rx + Ry| = A at *
  rw [abs_le]
  constructor <;>
    linarith [BX'.1, BX'.2, BY'.1, BY'.2, BD'.1, BD'.2, bs'.1, bs'.2, bx1.1, bx1.2, bY1.1, bY1.2]

/-! ## Degrees and radians in exact arithmetic -/

/-- Scaling by `180 / c` with `c` positive keeps the strict order. -/
theorem scale_lt_iff {K : Type} [LinearOrderedField K] (c : K) (hc : 0 < c) (a b : K) :
    a * 180 / c < b * 180 / c ↔ a < b := by
  have h : (0 : K) < 180 / c := div_pos (by norm_num) hc
  rw [mul_div_assoc, mul_div_assoc]
  exact mul_lt_mul_right h

/-- Scaling by `180 / c` with `c` positive is injective. -/
theorem scale_eq_iff {K : Type} [LinearOrderedField K] (c : K) (hc : 0 < c) (a b : K) :
    a * 180 / c = b * 180 / c ↔ a = b := by
  have h : (180 : K) / c ≠ 0 := ne_of_gt (div_pos (by norm_num) hc)
  rw [mul_div_assoc, mul_div_assoc]
  exact mul_left_inj' h

/-- Scaling by `c / 180` with `c` positive keeps the strict order. -/
theorem unscale_lt_iff {K : Type} [LinearOrderedField K] (c : K) (hc : 0 < c) (a b : K) :
    a * c / 180 < b * c / 180 ↔ a < b := by
  have h : (0 : K) < c / 180 := div_pos hc (by norm_num)
  rw [mul_div_assoc, mul_div_assoc]
  exact mul_lt_mul_right h

/-- Scaling by `c / 180` with `c` positive is injective. -/
theorem unscale_eq_iff {K : Type} [LinearOrderedField K] (c : K) (hc : 0 < c) (a b : K) :
    a * c / 180 = b * c / 180 ↔ a = b := by
  have h : c / 180 ≠ 0 := ne_of_gt (div_pos hc (by norm_num))
  rw [mul_div_assoc, mul_div_assoc]
  exact mul_left_inj' h

theorem M_PI_literal_pos : 0 < M_PI_literal := by
  unfold M_PI_literal
  norm_num

/-! ## The true sine and cosine at the stored doubles -/

/-- The double `M_PI` is below `π`, by less than `2^-52`. -/
theorem piD_lt_pi : (piD : ℝ) < Real.pi ∧ Real.pi - (piD : ℝ) ≤ 1 / 2 ^ 52 := by
  have h1 := Real.pi_gt_d20
  have h2 := Real.pi_lt_d20
  have hP : (piD : ℝ) = 884279719003555 / 281474976710656 := by
    unfold piD
    push_cast
    rfl
  rw [hP]
  constructor
  · norm_num at h1 ⊢
    linarith
  · norm_num at h2 ⊢
    linarith

/-- The true sine at the double `M_PI` is within `2^-52` of zero. -/
theorem sin_piD_small : |Real.sin (piD : ℝ)| ≤ 1 / 2 ^ 52 := by
  obtain ⟨h1, h2⟩ := piD_lt_pi
  have hpos : (0 : ℝ) < piD := by unfold piD; push_cast; norm_num
  rw [← Real.sin_pi_sub]
  have h0 : 0 ≤ Real.sin (Real.pi - piD) :=
    Real.sin_nonneg_of_nonneg_of_le_pi (by linarith) (by linarith)
  rw [abs_of_nonneg h0]
  have := Real.sin_le (by linarith : 0 ≤ Real.pi - (piD : ℝ))
  linarith

/-- The true sine at half the double `M_PI` is within `2^-52` of one. -/
theorem sin_half_piD_near_one : |Real.sin (((piD / 2 : ℚ) : ℝ)) - 1| ≤ 1 / 2 ^ 52 := by
  obtain ⟨h1, h2⟩ := piD_lt_pi
  have e : (((piD / 2 : ℚ) : ℝ)) = (piD : ℝ) / 2 := by push_cast; rfl
  rw [e, ← Real.cos_pi_div_two_sub]
  have ht : Real.pi / 2 - (piD : ℝ) / 2 ≤ 1 / 2 ^ 52 := by linarith
  have ht0 : 0 ≤ Real.pi / 2 - (piD : ℝ) / 2 := by linarith
  have hlow := Real.one_sub_sq_div_two_le_cos (x := Real.pi / 2 - (piD : ℝ) / 2)
  have hup := Real.cos_le_one (Real.pi / 2 - (piD : ℝ) / 2)
  have hsq : (Real.pi / 2 - (piD : ℝ) / 2) ^ 2 ≤ 1 / 2 ^ 52 := by
    have h1' : Real.pi / 2 - (piD : ℝ) / 2 ≤ 1 := le_trans ht (by norm_num)
    calc (Real.pi / 2 - (piD : ℝ) / 2) ^ 2
        = (Real.pi / 2 - (piD : ℝ) / 2) * (Real.pi / 2 - (piD : ℝ) / 2) := by ring
      _ ≤ 1 * (1 / 2 ^ 52) := mul_le_mul h1' ht ht0 (by norm_num)
      _ = 1 / 2 ^ 52 := by ring
  rw [abs_le]
  constructor <;> linarith

/-- The double `1.2246467991473532e-16` is within `2^-66` of the true sine at the double
`M_PI`. -/
theorem sin_piD_value :
    |((4967757600021511 / 2 ^ 105 : ℚ) : ℝ) - Real.sin (piD : ℝ)| ≤ 1 / 2 ^ 66 := by
  have h1 := Real.pi_gt_d20
  have h2 := Real.pi_lt_d20
  obtain ⟨hlt, hsmall⟩ := piD_lt_pi
  have hP : (piD : ℝ) = 884279719003555 / 281474976710656 := by
    unfold piD
    push_cast
    rfl
  have hδ0 : 0 < Real.pi - (piD : ℝ) := by linarith
  have hδ1 : Real.pi - (piD : ℝ) ≤ 1 := le_trans hsmall (by norm_num)
  have hup := Real.sin_le (le_of_lt hδ0)
  have hlow := Real.sin_gt_sub_cube hδ0 hδ1
  have hcube : (Real.pi - (piD : ℝ)) ^ 3 ≤ (1 / 2 ^ 52) ^ 3 :=
    pow_le_pow_left₀ (le_of_lt hδ0) hsmall 3
  rw [Real.sin_pi_sub] at hup hlow
  have hlo : (314159265358979323846 / 100000000000000000000 : ℝ)
      - 884279719003555 / 281474976710656 < Real.pi - (piD : ℝ) := by
    rw [hP]
    norm_num at h1 ⊢
    linarith
  have hhi : Real.pi - (piD : ℝ)
      < (314159265358979323847 / 100000000000000000000 : ℝ)
        - 884279719003555 / 281474976710656 := by
    rw [hP]
    norm_num at h2 ⊢
    linarith
  generalize Real.sin (piD : ℝ) = S at hup hlow ⊢
  generalize (Real.pi - (piD : ℝ)) ^ 3 = c at hlow hcube
  generalize Real.pi - (piD : ℝ) = δ at hup hlow hlo hhi
  rw [abs_le]
  push_cast
  constructor <;> norm_num at hcube hlo hhi ⊢ <;> linarith

/-- A datum within `ε` of `v` is within `ε + δ` of any `w` within `δ` of `v`. -/
theorem IEEE.Within.shift {f : Format} {x : IEEE f} {v ε : ℝ} (h : x.Within v ε) (w δ : ℝ)
    (hw : |v - w| ≤ δ) : x.Within w (ε + δ) := by
  obtain ⟨s, q, hx, hq⟩ := h
  refine ⟨s, q, hx, ?_⟩
  calc |((IEEE.signed s q : ℚ) : ℝ) - w|
      = |(((IEEE.signed s q : ℚ) : ℝ) - v) + (v - w)| := by ring_nf
    _ ≤ |((IEEE.signed s q : ℚ) : ℝ) - v| + |v - w| := abs_add _ _
    _ ≤ ε + δ := add_le_add hq hw

/-- With the decimal literal of the header in the place of `π`, the exact sine at 180
degrees is positive and below `10^-20`: not zero, the literal being below `π`. -/
theorem sin_M_PI_literal :
    0 < Real.sin ((M_PI_literal : ℚ) : ℝ) ∧ Real.sin ((M_PI_literal : ℚ) : ℝ) < 1 / 10 ^ 20 := by
  have h1 := Real.pi_gt_d20
  have h2 := Real.pi_lt_d20
  have hL : ((M_PI_literal : ℚ) : ℝ) = 314159265358979323846 / 100000000000000000000 := by
    unfold M_PI_literal
    push_cast
    rfl
  have hlt : ((M_PI_literal : ℚ) : ℝ) < Real.pi := by
    rw [hL]
    norm_num at h1 ⊢
    linarith
  have hgap : Real.pi - ((M_PI_literal : ℚ) : ℝ) < 1 / 10 ^ 20 := by
    rw [hL]
    norm_num at h2 ⊢
    linarith
  have hpos : (0 : ℝ) < ((M_PI_literal : ℚ) : ℝ) := by
    rw [hL]
    norm_num
  rw [← Real.sin_pi_sub]
  constructor
  · exact Real.sin_pos_of_pos_of_lt_pi (by linarith) (by linarith)
  · exact lt_of_le_of_lt (Real.sin_le (by linarith)) hgap

/-! ## Accurate math libraries -/

/-- A literal of magnitude at most `2^1023` is a finite double within half a unit in the
last place of its decimal value. -/
theorem lit_near (r : ℚ) (h : |r| ≤ 2 ^ 1023) :
    ∃ s q, lit r = IEEE.fin s q ∧ |IEEE.signed s q - r| ≤ |r| / 2 ^ 53 + 1 / 2 ^ 1075 := by
  obtain ⟨q, _, hq, hb⟩ :=
    round64 (decide (r < 0)) |r| (abs_nonneg r) (le_trans h (by norm_num))
  refine ⟨decide (r < 0), q, hq, ?_⟩
  by_cases hneg : r < 0
  · simp only [hneg, decide_True, IEEE.signed_true]
    rw [abs_of_neg hneg] at hb ⊢
    rw [show -q - r = -(q - -r) by ring, abs_neg]
    exact hb
  · simp only [hneg, decide_False, IEEE.signed_false]
    rw [abs_of_nonneg (not_lt.mp hneg)] at hb ⊢
    exact hb

/-- Near every real number of magnitude at most `4` there is a double. -/
theorem exists_near (v : ℝ) (hv : |v| ≤ 4) : ∃ y : F64, y.Near v := by
  obtain ⟨r, hr1, hr2⟩ := exists_rat_btwn (show v - 1 / 2 ^ 80 < v by
    have : (0 : ℝ) < 1 / 2 ^ 80 := by positivity
    linarith)
  have hv' := abs_le.mp hv
  have hrv : |(r : ℝ) - v| ≤ 1 / 2 ^ 80 := by
    rw [abs_le]
    constructor <;> linarith
  have hrabs : |(r : ℝ)| ≤ |v| + 1 / 2 ^ 80 := by
    have := abs_sub_abs_le_abs_sub (r : ℝ) v
    linarith
  have hr5 : |r| ≤ 2 ^ 1023 := by
    have h5 : |(r : ℝ)| ≤ 5 := by
      have : (1 : ℝ) / 2 ^ 80 ≤ 1 := by
        rw [div_le_one (by positivity)]
        exact one_le_pow₀ (by norm_num)
      linarith
    have h5' : |r| ≤ 5 := by exact_mod_cast h5
    exact le_trans h5' (by norm_num)
  obtain ⟨s, q, hq, hb⟩ := lit_near r hr5
  refine ⟨lit r, IEEE.ofRat_valid _ (by decide) (by decide) r, s, q, hq, ?_⟩
  have hbR : |((IEEE.signed s q : ℚ) : ℝ) - (r : ℝ)| ≤ |(r : ℝ)| / 2 ^ 53 + 1 / 2 ^ 1075 := by
    have h1 : ((|IEEE.signed s q - r| : ℚ) : ℝ) ≤ ((|r| / 2 ^ 53 + 1 / 2 ^ 1075 : ℚ) : ℝ) :=
      Rat.cast_le.mpr hb
    push_cast at h1
    exact h1
  have htri : |((IEEE.signed s q : ℚ) : ℝ) - v|
      ≤ |((IEEE.signed s q : ℚ) : ℝ) - (r : ℝ)| + |(r : ℝ) - v| := by
    have := abs_add (((IEEE.signed s q : ℚ) : ℝ) - (r : ℝ)) ((r : ℝ) - v)
    rwa [sub_add_sub_cancel] at this
  have hv0 : 0 ≤ |v| := abs_nonneg v
  generalize |((IEEE.signed s q : ℚ) : ℝ) - v| = A at htri ⊢
  generalize |((IEEE.signed s q : ℚ) : ℝ) - (r : ℝ)| = B at htri hbR
  generalize |(r : ℝ) - v| = C at htri hrv
  generalize |(r : ℝ)| = R at hrabs hbR
  generalize |v| = V at hrabs hv0 ⊢
  norm_num at hbR hrv hrabs ⊢
  linarith

/-- For every real function bounded by `4` there is a function on doubles that at every
finite argument returns a double near the value of the function. -/
theorem exists_near_fun (F : ℝ → ℝ) (hF : ∀ x, |F x| ≤ 4) :
    ∃ g : F64 → F64, ∀ (s : Bool) (q : ℚ),
      (g (IEEE.fin s q)).Near (F ((IEEE.signed s q : ℚ) : ℝ)) := by
  have h : ∀ x : F64, ∃ y : F64, ∀ (s : Bool) (q : ℚ), x = IEEE.fin s q →
      y.Near (F ((IEEE.signed s q : ℚ) : ℝ)) := by
    intro x
    cases x with
    | nan => exact ⟨IEEE.nan, fun s q h => by simp at h⟩
    | inf t => exact ⟨IEEE.nan, fun s q h => by simp at h⟩
    | fin t p =>
      obtain ⟨y, hy⟩ := exists_near (F ((IEEE.signed t p : ℚ) : ℝ)) (hF _)
      refine ⟨y, fun s q h => ?_⟩
      injection h with h1 h2
      rw [← h1, ← h2]
      exact hy
  choose g hg using h
  exact ⟨g, fun s q => hg _ s q rfl⟩

/-- There are accurate math libraries. -/
theorem exists_accurate : ∃ m : Cmath F64, m.Accurate := by
  have hpi := Real.pi_le_four
  have hpos := Real.pi_pos
  obtain ⟨gsin, hsin⟩ := exists_near_fun Real.sin (fun x => by
    have := Real.abs_sin_le_one x
    linarith)
  obtain ⟨gcos, hcos⟩ := exists_near_fun Real.cos (fun x => by
    have := Real.abs_cos_le_one x
    linarith)
  obtain ⟨gatan, hatan⟩ := exists_near_fun Real.arctan (fun x => by
    have h1 := Real.arctan_lt_pi_div_two x
    have h2 := Real.neg_pi_div_two_lt_arctan x
    rw [abs_le]
    constructor <;> linarith)
  obtain ⟨gasin, hasin⟩ := exists_near_fun Real.arcsin (fun x => by
    have h1 := Real.arcsin_le_pi_div_two x
    have h2 := Real.neg_pi_div_two_le_arcsin x
    rw [abs_le]
    constructor <;> linarith)
  obtain ⟨gacos, hacos⟩ := exists_near_fun Real.arccos (fun x => by
    have h1 := Real.arccos_le_pi x
    have h2 := Real.arccos_nonneg x
    rw [abs_le]
    constructor <;> linarith)
  refine ⟨{ sin := gsin, cos := gcos, tan := gsin, asin := gasin, acos := gacos,
            atan := gatan }, ?_⟩
  intro s q _
  exact ⟨hsin s q, hcos s q, hatan s q, fun _ => ⟨hasin s q, hacos s q⟩⟩

/-- No multiple of `2^-52` is within `2^-54` of `π / 2`. -/
theorem pi_div_two_off_grid (N : Nat) : 1 / 2 ^ 54 ≤ |(N : ℝ) / 2 ^ 52 - Real.pi / 2| := by
  have h1 := Real.pi_gt_d20
  have h2 := Real.pi_lt_d20
  rcases le_or_lt N 7074237752028440 with h | h
  · have hN : (N : ℝ) ≤ 7074237752028440 := by exact_mod_cast h
    rw [abs_sub_comm]
    refine le_trans ?_ (le_abs_self _)
    norm_num at h1 ⊢
    linarith
  · have hN : (7074237752028441 : ℝ) ≤ (N : ℝ) := by exact_mod_cast h
    refine le_trans ?_ (le_abs_self _)
    norm_num at h2 ⊢
    linarith

/-- Away from zero, and up to one, the sine is at least half its argument in magnitude. -/
theorem abs_sin_ge (t : ℝ) (h1 : |t| ≤ 1) : |t| / 2 ≤ |Real.sin t| := by
  rcases le_or_lt 0 t with h | h
  · rcases eq_or_lt_of_le h with h0 | hpos
    · rw [← h0]
      simp
    rw [abs_of_nonneg h] at h1 ⊢
    have hs := Real.sin_gt_sub_cube hpos h1
    have hc : t ^ 3 ≤ t := by
      calc t ^ 3 = t * t ^ 2 := by ring
        _ ≤ t * 1 := mul_le_mul_of_nonneg_left (pow_le_one₀ h h1) h
        _ = t := mul_one t
    refine le_trans ?_ (le_abs_self _)
    linarith
  · rw [abs_of_neg h] at h1 ⊢
    have hpos : 0 < -t := by linarith
    have hs := Real.sin_gt_sub_cube hpos h1
    have hc : (-t) ^ 3 ≤ -t := by
      calc (-t) ^ 3 = -t * (-t) ^ 2 := by ring
        _ ≤ -t * 1 := mul_le_mul_of_nonneg_left (pow_le_one₀ (le_of_lt hpos) h1)
            (le_of_lt hpos)
        _ = -t := mul_one (-t)
    rw [Real.sin_neg] at hs
    refine le_trans ?_ (neg_le_abs _)
    linarith

/-- With an accurate math library the arc cosine of `+0.0` is a double `y` whose true
cosine is at least `2^-55` in magnitude. -/
theorem acos_zero_accurate (m : Cmath F64) (hm : m.Accurate) :
    ∃ q : ℚ, binary64.Representable q ∧ m.acos (IEEE.fin false 0) = IEEE.fin false q
      ∧ |(q : ℝ) - Real.pi / 2| ≤ 1 / 2 ^ 50
      ∧ 1 / 2 ^ 55 ≤ |Real.cos (q : ℝ)| := by
  have hpi := Real.pi_le_four
  have hpi3 := Real.pi_gt_three
  obtain ⟨hv, s, q, hq, hb⟩ :=
    ((hm false 0 (representable_zero _ (by decide))).2.2.2 (by norm_num)).2
  rw [hq] at hv
  have hq0 : 0 ≤ q := Format.Representable.nonneg hv
  have e0 : ((IEEE.signed false 0 : ℚ) : ℝ) = 0 := by simp [IEEE.signed]
  rw [e0, Real.arccos_zero, abs_of_pos (by positivity : (0 : ℝ) < Real.pi / 2)] at hb
  have hb2 : |((IEEE.signed s q : ℚ) : ℝ) - Real.pi / 2| ≤ 1 / 2 ^ 50 := by
    refine le_trans hb ?_
    norm_num
    linarith
  have hb2' := abs_le.mp hb2
  have hpos : (0 : ℝ) < ((IEEE.signed s q : ℚ) : ℝ) := by
    have : (1 : ℝ) / 2 ^ 50 ≤ 1 := by norm_num
    linarith [hb2'.1]
  have hs : s = false := IEEE.signed_pos_sign s q hq0 (by exact_mod_cast hpos)
  subst hs
  rw [IEEE.signed_false] at hb2 hb2' hpos
  have hq1 : (2 : ℚ) ^ (0 : Int) ≤ q := by
    have h1 : (1 : ℝ) ≤ (q : ℝ) := by
      have : (1 : ℝ) / 2 ^ 50 ≤ 1 / 2 := by norm_num
      linarith [hb2'.1]
    rw [zpow_zero]
    exact_mod_cast h1
  obtain ⟨N, hN⟩ := representable64_grid q hv 0 hq1
  have hNR : (q : ℝ) = (N : ℝ) / 2 ^ 52 := by
    rw [hN]
    push_cast
    norm_num
    ring
  have hoff := pi_div_two_off_grid N
  rw [← hNR] at hoff
  refine ⟨q, hv, hq, hb2, ?_⟩
  rw [← Real.sin_pi_div_two_sub]
  have ht1 : |Real.pi / 2 - (q : ℝ)| ≤ 1 := by
    rw [abs_sub_comm]
    exact le_trans hb2 (by norm_num)
  have hge := abs_sin_ge _ ht1
  rw [abs_sub_comm] at hoff
  linarith

/-- With an accurate math library the cosine of the arc cosine of `+0.0` is a finite double
of magnitude at least `2^-56`: not a zero. -/
theorem cos_acos_zero_accurate (m : Cmath F64) (hm : m.Accurate) :
    ∃ (s : Bool) (q : ℚ), m.cos (m.acos (IEEE.fin false 0)) = IEEE.fin s q
      ∧ 1 / 2 ^ 56 ≤ q := by
  obtain ⟨y, hy, hacos, _, hcos⟩ := acos_zero_accurate m hm
  obtain ⟨hv, s, q, hq, hb⟩ := (hm false y hy).2.1
  rw [hacos, hq]
  rw [hq] at hv
  have hq0 : 0 ≤ q := Format.Representable.nonneg hv
  rw [IEEE.signed_false] at hb
  refine ⟨s, q, rfl, ?_⟩
  have habs : |((IEEE.signed s q : ℚ) : ℝ)| = (q : ℝ) := by
    cases s
    · rw [IEEE.signed_false]
      exact abs_of_nonneg (by exact_mod_cast hq0)
    · rw [IEEE.signed_true]
      push_cast
      rw [abs_neg]
      exact abs_of_nonneg (by exact_mod_cast hq0)
  have htri := abs_sub_abs_le_abs_sub (Real.cos (y : ℝ)) ((IEEE.signed s q : ℚ) : ℝ)
  rw [abs_sub_comm] at htri
  rw [habs] at htri
  have hqR : (1 : ℝ) / 2 ^ 56 ≤ (q : ℝ) := by
    generalize |Real.cos (y : ℝ)| = c at hcos hb htri
    generalize |((IEEE.signed s q : ℚ) : ℝ) - Real.cos (y : ℝ)| = d at hb htri
    norm_num at hcos hb ⊢
    linarith
  have hcast : ((1 / 2 ^ 56 : ℚ) : ℝ) ≤ (q : ℝ) := by
    push_cast
    exact hqR
  exact (Rat.cast_le (K := ℝ)).mp hcast

/-- The arc sine maps `[31/64, 1/2]` into `[1/2 + 2^-10, 135/256 - 2^-10]`. -/
theorem arcsin_range (x : ℝ) (h1 : 31 / 64 ≤ x) (h2 : x ≤ 1 / 2) :
    1 / 2 + 1 / 1024 ≤ Real.arcsin x ∧ Real.arcsin x ≤ 135 / 256 - 1 / 1024 := by
  have hpi3 := Real.pi_gt_three
  have hpi := Real.pi_lt_d2
  have hx : x ∈ Set.Icc (-1 : ℝ) 1 := ⟨by linarith, by linarith⟩
  constructor
  · rw [Real.le_arcsin_iff_sin_le ⟨by linarith, by linarith⟩ hx]
    have hb := Real.sin_bound (x := 1 / 2 + 1 / 1024) (by
      rw [abs_of_nonneg (by norm_num)]
      norm_num)
    have hb' := (abs_le.mp hb).2
    rw [abs_of_nonneg (by norm_num : (0 : ℝ) ≤ 1 / 2 + 1 / 1024)] at hb'
    norm_num at hb' ⊢
    linarith
  · have h6 : Real.arcsin x ≤ Real.pi / 6 := by
      rw [Real.arcsin_le_iff_le_sin hx ⟨by linarith, by linarith⟩, Real.sin_pi_div_six]
      exact h2
    norm_num
    linarith

/-- The sine and the cosine are Lipschitz with constant one. -/
theorem abs_sin_sub_sin_le (a b : ℝ) : |Real.sin a - Real.sin b| ≤ |a - b| := by
  rw [Real.sin_sub_sin, abs_mul, abs_mul]
  have h1 : |Real.sin ((a - b) / 2)| ≤ |(a - b) / 2| := Real.abs_sin_le_abs
  have h2 : |Real.cos ((a + b) / 2)| ≤ 1 := Real.abs_cos_le_one _
  have h3 : |(a - b) / 2| = |a - b| / 2 := by
    rw [abs_div, abs_of_pos (by norm_num : (0 : ℝ) < 2)]
  have h0 : 0 ≤ |Real.sin ((a - b) / 2)| := abs_nonneg _
  rw [abs_of_pos (by norm_num : (0 : ℝ) < 2)]
  calc 2 * |Real.sin ((a - b) / 2)| * |Real.cos ((a + b) / 2)|
      ≤ 2 * |Real.sin ((a - b) / 2)| * 1 :=
        mul_le_mul_of_nonneg_left h2 (by positivity)
    _ ≤ |a - b| := by linarith

theorem abs_cos_sub_cos_le (a b : ℝ) : |Real.cos a - Real.cos b| ≤ |a - b| := by
  rw [Real.cos_sub_cos, abs_mul, abs_mul]
  have h1 : |Real.sin ((a - b) / 2)| ≤ |(a - b) / 2| := Real.abs_sin_le_abs
  have h2 : |Real.sin ((a + b) / 2)| ≤ 1 := Real.abs_sin_le_one _
  have h3 : |(a - b) / 2| = |a - b| / 2 := by
    rw [abs_div, abs_of_pos (by norm_num : (0 : ℝ) < 2)]
  have h0 : 0 ≤ |Real.sin ((a - b) / 2)| := abs_nonneg _
  have h4 : |(-2 : ℝ)| = 2 := by norm_num
  rw [h4]
  calc 2 * |Real.sin ((a + b) / 2)| * |Real.sin ((a - b) / 2)|
      ≤ 2 * 1 * |Real.sin ((a - b) / 2)| :=
        mul_le_mul_of_nonneg_right (mul_le_mul_of_nonneg_left h2 (by norm_num)) h0
    _ ≤ |a - b| := by linarith

/-- With an accurate math library the sine of the arc sine and the cosine of the arc cosine
of a finite double of `[-1, 1]` are finite and within `2^-49` of it. -/
theorem round_trip_accurate (m : Cmath F64) (hm : m.Accurate) (s : Bool) (q : ℚ)
    (hq : binary64.Representable q) (h1 : q ≤ 1) :
    (m.sin (m.asin (IEEE.fin s q))).Within ((IEEE.signed s q : ℚ) : ℝ) (1 / 2 ^ 49)
    ∧ (m.cos (m.acos (IEEE.fin s q))).Within ((IEEE.signed s q : ℚ) : ℝ) (1 / 2 ^ 49) := by
  have hpi := Real.pi_le_four
  have hpos := Real.pi_pos
  have hq0 : 0 ≤ q := hq.nonneg
  have hx : -1 ≤ ((IEEE.signed s q : ℚ) : ℝ) ∧ ((IEEE.signed s q : ℚ) : ℝ) ≤ 1 := by
    have hqR : (q : ℝ) ≤ 1 := by exact_mod_cast h1
    have hqR0 : (0 : ℝ) ≤ (q : ℝ) := by exact_mod_cast hq0
    cases s
    · rw [IEEE.signed_false]
      constructor <;> linarith
    · rw [IEEE.signed_true]
      push_cast
      constructor <;> linarith
  obtain ⟨⟨hva, sa, qa, ea, ba⟩, ⟨hvc, sc, qc, ec, bc⟩⟩ := (hm s q hq).2.2.2 h1
  generalize ((IEEE.signed s q : ℚ) : ℝ) = x at hx ba bc ⊢
  constructor
  · rw [ea] at hva ⊢
    obtain ⟨_, t, p, ep, bp⟩ := (hm sa qa hva).1
    refine ⟨t, p, ep, ?_⟩
    have hA : |Real.arcsin x| ≤ 2 := by
      have h1 := Real.arcsin_le_pi_div_two x
      have h2 := Real.neg_pi_div_two_le_arcsin x
      rw [abs_le]
      constructor <;> linarith
    have hS : |Real.sin ((IEEE.signed sa qa : ℚ) : ℝ)| ≤ 1 := Real.abs_sin_le_one _
    have hL := abs_sin_sub_sin_le ((IEEE.signed sa qa : ℚ) : ℝ) (Real.arcsin x)
    rw [Real.sin_arcsin hx.1 hx.2] at hL
    have htri : |((IEEE.signed t p : ℚ) : ℝ) - x|
        ≤ |((IEEE.signed t p : ℚ) : ℝ) - Real.sin ((IEEE.signed sa qa : ℚ) : ℝ)|
          + |Real.sin ((IEEE.signed sa qa : ℚ) : ℝ) - x| := by
      have := abs_add (((IEEE.signed t p : ℚ) : ℝ) - Real.sin ((IEEE.signed sa qa : ℚ) : ℝ))
        (Real.sin ((IEEE.signed sa qa : ℚ) : ℝ) - x)
      rwa [sub_add_sub_cancel] at this
    generalize |((IEEE.signed t p : ℚ) : ℝ) - x| = G at htri ⊢
    generalize |((IEEE.signed t p : ℚ) : ℝ) - Real.sin ((IEEE.signed sa qa : ℚ) : ℝ)| = A
      at htri bp
    generalize |Real.sin ((IEEE.signed sa qa : ℚ) : ℝ) - x| = B at htri hL
    generalize |((IEEE.signed sa qa : ℚ) : ℝ) - Real.arcsin x| = C at hL ba
    generalize |Real.arcsin x| = D at hA ba
    generalize |Real.sin ((IEEE.signed sa qa : ℚ) : ℝ)| = E at hS bp
    norm_num at ba bp ⊢
    linarith
  · rw [ec] at hvc ⊢
    obtain ⟨_, t, p, ep, bp⟩ := (hm sc qc hvc).2.1
    refine ⟨t, p, ep, ?_⟩
    have hA : |Real.arccos x| ≤ 4 := by
      have h1 := Real.arccos_le_pi x
      have h2 := Real.arccos_nonneg x
      rw [abs_le]
      constructor <;> linarith
    have hS : |Real.cos ((IEEE.signed sc qc : ℚ) : ℝ)| ≤ 1 := Real.abs_cos_le_one _
    have hL := abs_cos_sub_cos_le ((IEEE.signed sc qc : ℚ) : ℝ) (Real.arccos x)
    rw [Real.cos_arccos hx.1 hx.2] at hL
    have htri : |((IEEE.signed t p : ℚ) : ℝ) - x|
        ≤ |((IEEE.signed t p : ℚ) : ℝ) - Real.cos ((IEEE.signed sc qc : ℚ) : ℝ)|
          + |Real.cos ((IEEE.signed sc qc : ℚ) : ℝ) - x| := by
      have := abs_add (((IEEE.signed t p : ℚ) : ℝ) - Real.cos ((IEEE.signed sc qc : ℚ) : ℝ))
        (Real.cos ((IEEE.signed sc qc : ℚ) : ℝ) - x)
      rwa [sub_add_sub_cancel] at this
    generalize |((IEEE.signed t p : ℚ) : ℝ) - x| = G at htri ⊢
    generalize |((IEEE.signed t p : ℚ) : ℝ) - Real.cos ((IEEE.signed sc qc : ℚ) : ℝ)| = A
      at htri bp
    generalize |Real.cos ((IEEE.signed sc qc : ℚ) : ℝ) - x| = B at htri hL
    generalize |((IEEE.signed sc qc : ℚ) : ℝ) - Real.arccos x| = C at hL ba bc
    generalize |Real.arccos x| = D at hA bc
    generalize |Real.cos ((IEEE.signed sc qc : ℚ) : ℝ)| = E at hS bp
    norm_num at bc bp ⊢
    linarith

/-- The doubles of `[31/64, 1/2)` are the multiples `n / 2^54` with `31 * 2^48 ≤ n < 2^53`. -/
theorem grid54 (n : Nat) (h1 : 31 * 2 ^ 48 ≤ n) (h2 : n < 2 ^ 53) :
    binary64.Representable ((n : ℚ) / 2 ^ 54) ∧ (31 : ℚ) / 64 ≤ (n : ℚ) / 2 ^ 54
      ∧ (n : ℚ) / 2 ^ 54 < 1 / 2 := by
  have hn1 : ((31 * 2 ^ 48 : Nat) : ℚ) ≤ (n : ℚ) := by exact_mod_cast h1
  have hn2 : (n : ℚ) < ((2 ^ 53 : Nat) : ℚ) := by exact_mod_cast h2
  push_cast at hn1 hn2
  refine ⟨⟨n, -54, h2, by decide, by decide, ?_⟩, ?_, ?_⟩
  · rw [zpow_neg, div_eq_mul_inv]
    norm_cast
  · rw [le_div_iff₀ (by positivity)]
    linarith
  · rw [div_lt_iff₀ (by positivity)]
    linarith

/-- With an accurate math library the arc sine of a double of `[31/64, 1/2)` is a double of
`[1/2, 135/256]`: `N / 2^53` with `2^52 ≤ N ≤ 135 * 2^45`. -/
theorem asin_grid_accurate (m : Cmath F64) (hm : m.Accurate) (n : Nat)
    (h1 : 31 * 2 ^ 48 ≤ n) (h2 : n < 2 ^ 53) :
    ∃ N : Nat, 2 ^ 52 ≤ N ∧ N ≤ 135 * 2 ^ 45
      ∧ m.asin (IEEE.fin false ((n : ℚ) / 2 ^ 54)) = IEEE.fin false ((N : ℚ) / 2 ^ 53) := by
  obtain ⟨hrep, hlo, hhi⟩ := grid54 n h1 h2
  obtain ⟨hv, s, p, ep, bp⟩ := ((hm false _ hrep).2.2.2 (by linarith)).1
  rw [IEEE.signed_false] at bp
  have hloR : (31 : ℝ) / 64 ≤ (((n : ℚ) / 2 ^ 54 : ℚ) : ℝ) := by
    have := (Rat.cast_le (K := ℝ)).mpr hlo
    push_cast at this ⊢
    exact this
  have hhiR : (((n : ℚ) / 2 ^ 54 : ℚ) : ℝ) ≤ 1 / 2 := by
    have := (Rat.cast_le (K := ℝ)).mpr (le_of_lt hhi)
    push_cast at this ⊢
    exact this
  obtain ⟨ha1, ha2⟩ := arcsin_range _ hloR hhiR
  generalize Real.arcsin (((n : ℚ) / 2 ^ 54 : ℚ) : ℝ) = A at ha1 ha2 bp
  rw [abs_of_nonneg (by linarith : (0 : ℝ) ≤ A)] at bp
  have hA : A / 2 ^ 52 + 1 / 2 ^ 78 ≤ 1 / 1024 := by
    norm_num
    linarith
  have bp' := abs_le.mp (le_trans bp hA)
  rw [ep] at hv
  have hp0 : 0 ≤ p := Format.Representable.nonneg hv
  have hs : s = false := by
    apply IEEE.signed_pos_sign s p hp0
    have : (0 : ℝ) < ((IEEE.signed s p : ℚ) : ℝ) := by linarith [bp'.1]
    exact_mod_cast this
  subst hs
  rw [IEEE.signed_false] at bp'
  have hp1 : (1 : ℝ) / 2 ≤ (p : ℝ) := by linarith [bp'.1]
  have hp2 : (p : ℝ) ≤ 135 / 256 := by linarith [bp'.2]
  have hp1q : (1 : ℚ) / 2 ≤ p := by
    have : (((1 : ℚ) / 2 : ℚ) : ℝ) ≤ (p : ℝ) := by
      push_cast
      exact hp1
    exact (Rat.cast_le (K := ℝ)).mp this
  have hp2q : p ≤ (135 : ℚ) / 256 := by
    have : (p : ℝ) ≤ (((135 : ℚ) / 256 : ℚ) : ℝ) := by
      push_cast
      exact hp2
    exact (Rat.cast_le (K := ℝ)).mp this
  obtain ⟨N, hN⟩ := representable64_grid p hv (-1) (by
    rw [zpow_neg, zpow_one]
    linarith)
  have hN' : p = (N : ℚ) / 2 ^ 53 := by
    rw [hN, show ((-1 : Int) - 52) = -((53 : Nat) : Int) by norm_num, zpow_neg, zpow_natCast,
      div_eq_mul_inv]
  rw [hN'] at hp1q hp2q
  rw [le_div_iff₀ (by positivity)] at hp1q
  rw [div_le_iff₀ (by positivity)] at hp2q
  refine ⟨N, ?_, ?_, by rw [ep, hN']⟩
  · have : ((2 ^ 52 : Nat) : ℚ) ≤ (N : ℚ) := by
      push_cast
      linarith
    exact_mod_cast this
  · have : (N : ℚ) ≤ ((135 * 2 ^ 45 : Nat) : ℚ) := by
      push_cast
      linarith
    exact_mod_cast this

/-- With an accurate math library there is a double `x` in `[31/64, 1/2)` at which the sine
of the arc sine does not compare equal to `x`: the arc sine maps the `2^48` doubles of that
interval into an interval of fewer doubles. -/
theorem sin_asin_fails_accurate (m : Cmath F64) (hm : m.Accurate) :
    ∃ q : ℚ, binary64.Representable q ∧ 31 / 64 ≤ q ∧ q < 1 / 2
      ∧ IEEE.eq (m.sin (m.asin (IEEE.fin false q))) (IEEE.fin false q) = false := by
  have h : ∀ n : Nat, ∃ N : Nat, n ∈ Finset.Ico (31 * 2 ^ 48) (2 ^ 53) →
      (N ∈ Finset.Icc (2 ^ 52) (135 * 2 ^ 45)
        ∧ m.asin (IEEE.fin false ((n : ℚ) / 2 ^ 54)) = IEEE.fin false ((N : ℚ) / 2 ^ 53)) := by
    intro n
    by_cases hn : n ∈ Finset.Ico (31 * 2 ^ 48) (2 ^ 53)
    · obtain ⟨h1, h2⟩ := Finset.mem_Ico.mp hn
      obtain ⟨N, hN1, hN2, hN⟩ := asin_grid_accurate m hm n h1 h2
      exact ⟨N, fun _ => ⟨Finset.mem_Icc.mpr ⟨hN1, hN2⟩, hN⟩⟩
    · exact ⟨0, fun h => absurd h hn⟩
  choose g hg using h
  have hcard : (Finset.Icc (2 ^ 52) (135 * 2 ^ 45)).card
      < (Finset.Ico (31 * 2 ^ 48) (2 ^ 53)).card := by
    rw [Nat.card_Icc, Nat.card_Ico]
    norm_num
  obtain ⟨a, ha, b, hb, hab, hgab⟩ :=
    Finset.exists_ne_map_eq_of_card_lt_of_maps_to hcard (fun n hn => (hg n hn).1)
  obtain ⟨ha1, ha2⟩ := Finset.mem_Ico.mp ha
  obtain ⟨hb1, hb2⟩ := Finset.mem_Ico.mp hb
  have easin : m.asin (IEEE.fin false ((a : ℚ) / 2 ^ 54))
      = m.asin (IEEE.fin false ((b : ℚ) / 2 ^ 54)) := by
    rw [(hg a ha).2, (hg b hb).2, hgab]
  cases hea : IEEE.eq (m.sin (m.asin (IEEE.fin false ((a : ℚ) / 2 ^ 54))))
      (IEEE.fin false ((a : ℚ) / 2 ^ 54)) with
  | false =>
    obtain ⟨h1, h2, h3⟩ := grid54 a ha1 ha2
    exact ⟨_, h1, h2, h3, hea⟩
  | true =>
    obtain ⟨h1, h2, h3⟩ := grid54 b hb1 hb2
    refine ⟨_, h1, h2, h3, ?_⟩
    cases heb : IEEE.eq (m.sin (m.asin (IEEE.fin false ((b : ℚ) / 2 ^ 54))))
        (IEEE.fin false ((b : ℚ) / 2 ^ 54)) with
    | false => rfl
    | true =>
      exfalso
      rw [← easin] at heb
      have hval := IEEE.eq_eq_fin _ _ _ _ _ hea heb
      rw [IEEE.signed_false, IEEE.signed_false] at hval
      have h54 : (2 : ℚ) ^ 54 ≠ 0 := by positivity
      have hq : (a : ℚ) = (b : ℚ) := by
        have := congrArg (fun t => t * (2 : ℚ) ^ 54) hval
        simp only [div_mul_cancel₀ _ h54] at this
        exact this
      exact hab (by exact_mod_cast hq)

/-! ## The claims -/

/-- C1: for every degrees value `d`, `from_degrees(d).get_radians()` is `(d * M_PI) / 180.0`
in the arithmetic of the scalar type, and the value is not wrapped into a canonical range:
`from_degrees(720)` and `from_degrees(-720)` store the doubles `±12.566370614359172`. -/
theorem C1_from_degrees_get_radians :
    (∀ (T : Type) [Scalar T] (d : T),
        (AngleT.from_degrees d).get_radians
          = Scalar.div (Scalar.mul d Scalar.M_PI) Scalar.c180)
    ∧ (AngleT.from_degrees (lit 720)).get_radians
        = IEEE.fin false (884279719003555 / 70368744177664)
    ∧ (AngleT.from_degrees (lit (-720))).get_radians
        = IEEE.fin true (884279719003555 / 70368744177664)
    ∧ (AngleT.from_degrees (720 : ℚ)).get_radians = 720 * M_PI_literal / 180 :=
  ⟨fun _ _ _ => rfl, by decide!, by decide!, rfl⟩

/-- C2, amended: `get_degrees` undoes `from_degrees` exactly in exact arithmetic, and in
double precision exactly at 0, 90, 180, 270, 360 and -45.  For every finite `d` whose exact
product `|d| * M_PI` with the double `M_PI` is at most `2^1024 - 2^974` the result is finite,
has the sign of `d`, and is within `|d| / 2^50 + 2^-1068` of `d`; for every finite `d` with
`|d| * M_PI ≥ 2^1024` the result is the infinity of the sign of `d`; at an infinity the
result is that infinity, and at NaN it is NaN. -/
theorem C2_degrees_round_trip :
    (∀ d : ℚ, (AngleT.from_degrees d).get_degrees = d)
    ∧ (∀ d ∈ [lit 0, lit 90, lit 180, lit 270, lit 360, lit (-45)],
        (AngleT.from_degrees d).get_degrees = d)
    ∧ (∀ (s : Bool) (q : ℚ), 0 ≤ q → q * piD ≤ 2 ^ 1024 - 2 ^ 974 →
        ∃ r, (AngleT.from_degrees (IEEE.fin s q : F64)).get_degrees = IEEE.fin s r
          ∧ |r - q| ≤ q / 2 ^ 50 + 1 / 2 ^ 1068)
    ∧ (∀ (s : Bool) (q : ℚ), 2 ^ 1024 ≤ q * piD →
        (AngleT.from_degrees (IEEE.fin s q : F64)).get_degrees = IEEE.inf s)
    ∧ (∀ s : Bool, (AngleT.from_degrees (IEEE.inf s : F64)).get_degrees = IEEE.inf s)
    ∧ (AngleT.from_degrees (IEEE.nan : F64)).get_degrees = IEEE.nan := by
  refine ⟨?_, by decide!, ?_, ?_, ?_, by decide!⟩
  · intro d
    show d * M_PI_literal / 180 * 180 / M_PI_literal = d
    unfold M_PI_literal
    ring
  · intro s q h0 hq
    have hP : piD = 884279719003555 / 281474976710656 := rfl
    obtain ⟨r, hr0, hr, hre⟩ := from_degrees64 s q h0 (by linarith)
    have hre' := abs_le.mp hre
    rw [hP] at hre' hq
    obtain ⟨d, _, hd, hde⟩ := get_degrees64 s r hr0 (by linarith [hre'.2])
    have hde' := abs_le.mp hde
    rw [hP] at hde'
    refine ⟨d, by rw [hr, hd], ?_⟩
    rw [abs_le]
    constructor <;> linarith [hre'.1, hre'.2, hde'.1, hde'.2]
  · intro s q hq
    rw [from_degrees64_overflow s q hq, get_degrees64_inf]
  · intro s
    cases s <;> decide!

/-- C2, the bounds in double precision: at `d = 100` and at `d = 2^1022` the round trip is
finite, positive and within the bound of `d`; at `d = -2^1023` it is `-Infinity`. -/
theorem C2_degrees_round_trip_witness :
    (∃ r, (AngleT.from_degrees (IEEE.fin false 100 : F64)).get_degrees = IEEE.fin false r
      ∧ |r - 100| ≤ 100 / 2 ^ 50 + 1 / 2 ^ 1068)
    ∧ (∃ r, (AngleT.from_degrees (IEEE.fin false (2 ^ 1022) : F64)).get_degrees
          = IEEE.fin false r
      ∧ |r - 2 ^ 1022| ≤ 2 ^ 1022 / 2 ^ 50 + 1 / 2 ^ 1068)
    ∧ (AngleT.from_degrees (IEEE.fin true (2 ^ 1023) : F64)).get_degrees = IEEE.inf true :=
  ⟨C2_degrees_round_trip.2.2.1 false 100 (by norm_num) (by unfold piD; norm_num),
    C2_degrees_round_trip.2.2.1 false (2 ^ 1022) (by norm_num) (by unfold piD; norm_num),
    C2_degrees_round_trip.2.2.2.1 true (2 ^ 1023) (by unfold piD; norm_num)⟩

/-- C2 fails as stated in double precision: at the finite double `2^1023` the product
with `M_PI` overflows, so `from_degrees(d).get_degrees()` is `+Infinity` and does not
compare equal to `d`. -/
theorem C2_overflow_counterexample :
    lit (2 ^ 1023) = IEEE.fin false (2 ^ 1023)
    ∧ (AngleT.from_degrees (lit (2 ^ 1023))).get_degrees = IEEE.inf false
    ∧ Scalar.eq (AngleT.from_degrees (lit (2 ^ 1023))).get_degrees (lit (2 ^ 1023))
        = false := by
  decide!

/-- C3: `from_radians(r)` and the converting constructor both store `r` itself, so that
`get_radians()` returns the very value passed, NaN and the infinities included, and
`from_radians(r).get_degrees()` is `(r * 180.0) / M_PI`. -/
theorem C3_from_radians_stores_unchanged :
    (∀ (T : Type) [Scalar T] (r : T),
        (AngleT.from_radians r).get_radians = r
        ∧ (AngleT.ctor r : AngleT T).get_radians = r
        ∧ (AngleT.from_radians r).get_degrees
            = Scalar.div (Scalar.mul r Scalar.c180) Scalar.M_PI)
    ∧ (AngleT.from_radians (IEEE.nan : F64)).get_radians = IEEE.nan
    ∧ (AngleT.ctor (IEEE.nan : F64) : Angle).get_radians = IEEE.nan
    ∧ (∀ s : Bool, (AngleT.from_radians (IEEE.inf s : F64)).get_radians = IEEE.inf s
        ∧ (AngleT.ctor (IEEE.inf s : F64) : Angle).get_radians = IEEE.inf s) :=
  ⟨fun _ _ _ => ⟨rfl, rfl, rfl⟩, rfl, rfl, fun _ => ⟨rfl, rfl⟩⟩

/-- C4: `operator<=` and `operator>=` are not the comparisons `<=` and `>=` of the radians
values.  `==`, `!=`, `<` and `>` are the direct comparisons for every pair of angles, and
`<=`, `>=` agree with the direct ones whenever neither radians value is NaN; but with a
NaN on the left and zero on the right `a <= b` and `a >= b` both return true, where
`NaN <= 0.0` and `NaN >= 0.0` are false. -/
theorem C4_le_ge_true_on_nan :
    (∀ (T : Type) [Scalar T] (a b : AngleT T),
        AngleT.operator_eq a b = Scalar.eq a.radians b.radians
        ∧ AngleT.operator_ne a b = !(Scalar.eq a.radians b.radians)
        ∧ AngleT.operator_lt a b = Scalar.lt a.radians b.radians
        ∧ AngleT.operator_gt a b = Scalar.gt a.radians b.radians)
    ∧ (∀ a b : Angle, a.radians ≠ IEEE.nan → b.radians ≠ IEEE.nan →
        AngleT.operator_le a b = Scalar.le a.radians b.radians
        ∧ AngleT.operator_ge a b = Scalar.ge a.radians b.radians)
    ∧ AngleT.operator_le (AngleT.ctor (IEEE.nan : F64) : Angle) (AngleT.ctor (lit 0)) = true
    ∧ Scalar.le (IEEE.nan : F64) (lit 0) = false
    ∧ AngleT.operator_ge (AngleT.ctor (IEEE.nan : F64) : Angle) (AngleT.ctor (lit 0)) = true
    ∧ Scalar.ge (IEEE.nan : F64) (lit 0) = false := by
  refine ⟨fun _ _ _ _ => ⟨rfl, rfl, rfl, rfl⟩, ?_, by decide!, by decide!, by decide!, by decide!⟩
  intro a b ha hb
  constructor
  · exact IEEE.not_gt_eq_le a.radians b.radians ha hb
  · exact IEEE.not_gt_eq_le b.radians a.radians hb ha

/-- C5: the value-returning operators compute on the radians values alone: the radians of
`a + b`, `a - b`, `-a`, `a * k`, `a / k` are `a.r + b.r`, `a.r - b.r`, `-a.r`, `a.r * k`,
`a.r / k`, and the result is not normalised: 360 degrees plus 360 degrees stores the double
`12.566370614359172`. The operands are values, which the operators cannot change. -/
theorem C5_arithmetic_on_radians :
    (∀ (T : Type) [Scalar T] (a b : AngleT T) (k : T),
        (AngleT.operator_add a b).get_radians = Scalar.add a.radians b.radians
        ∧ (AngleT.operator_sub a b).get_radians = Scalar.sub a.radians b.radians
        ∧ (AngleT.operator_neg a).get_radians = Scalar.neg a.radians
        ∧ (AngleT.operator_mul a k).get_radians = Scalar.mul a.radians k
        ∧ (AngleT.operator_div a k).get_radians = Scalar.div a.radians k)
    ∧ (AngleT.operator_add (AngleT.from_degrees (lit 360))
          (AngleT.from_degrees (lit 360))).get_radians
        = IEEE.fin false (884279719003555 / 70368744177664) :=
  ⟨fun _ _ _ _ _ => ⟨rfl, rfl, rfl, rfl, rfl⟩, by decide!⟩

/-- C6: each compound operator leaves in the receiver what its value-returning counterpart
returns, returns a reference to the receiver, and changes no other object, so the
right-hand operand keeps its value when it is another object than the receiver.  In
double precision, `a = from_degrees(90); a += from_degrees(90)` leaves `a.get_degrees()`
equal to `180.0`. -/
theorem C6_compound_mirrors_pure :
    (∀ (T : Type) [Scalar T] (σ : Store T) (this other : Addr) (k : T),
        ((AngleT.operator_add_assign σ this other).1 this
            = AngleT.operator_add (σ this) (σ other)
          ∧ (AngleT.operator_add_assign σ this other).2 = this
          ∧ ∀ p, p ≠ this → (AngleT.operator_add_assign σ this other).1 p = σ p)
        ∧ ((AngleT.operator_sub_assign σ this other).1 this
            = AngleT.operator_sub (σ this) (σ other)
          ∧ (AngleT.operator_sub_assign σ this other).2 = this
          ∧ ∀ p, p ≠ this → (AngleT.operator_sub_assign σ this other).1 p = σ p)
        ∧ ((AngleT.operator_mul_assign σ this k).1 this = AngleT.operator_mul (σ this) k
          ∧ (AngleT.operator_mul_assign σ this k).2 = this
          ∧ ∀ p, p ≠ this → (AngleT.operator_mul_assign σ this k).1 p = σ p)
        ∧ ((AngleT.operator_div_assign σ this k).1 this = AngleT.operator_div (σ this) k
          ∧ (AngleT.operator_div_assign σ this k).2 = this
          ∧ ∀ p, p ≠ this → (AngleT.operator_div_assign σ this k).1 p = σ p))
    ∧ ((AngleT.operator_add_assign twoRightAngles 0 1).1 0).get_degrees = lit 180
    ∧ (AngleT.operator_add_assign twoRightAngles 0 1).1 1 = AngleT.from_degrees (lit 90) := by
  refine ⟨?_, by decide!, by decide!⟩
  intro T _ σ this other k
  refine ⟨⟨?_, rfl, ?_⟩, ⟨?_, rfl, ?_⟩, ⟨?_, rfl, ?_⟩, ⟨?_, rfl, ?_⟩⟩
  all_goals first
    | (intro p hp
       simp [AngleT.operator_add_assign, AngleT.operator_sub_assign,
         AngleT.operator_mul_assign, AngleT.operator_div_assign, Store.assign, hp])
    | simp [AngleT.operator_add_assign, AngleT.operator_sub_assign,
        AngleT.operator_mul_assign, AngleT.operator_div_assign, Store.assign,
        AngleT.operator_add, AngleT.operator_sub, AngleT.operator_mul, AngleT.operator_div,
        AngleT.ctor, StaticCast.cast]

/-- C7, amended: in exact arithmetic addition, subtraction and negation of angles are
addition, subtraction and negation of their degrees values.  In double precision
`90 + 90`, `180 - 90` and `-(90)` degrees read back as exactly `180`, `90`, `-90`.  For all
finite `x`, `y` with `(|x| + |y|) * M_PI ≤ 2^1024 - 2^974`, the product exact and `M_PI` the
double, the degrees value of `from_degrees(x) ± from_degrees(y)` is finite and within
`(|x| + |y|) / 2^50 + 2^-1066` of `x ± y`, and that of `-from_degrees(x)` has the opposite
sign of `x` and magnitude within `|x| / 2^50 + 2^-1068` of `|x|`.  For all finite `x`, `y`
with `|x| * M_PI ≥ 2^1024` and `|y| * M_PI ≤ 2^1024 - 2^972` the degrees values of
`from_degrees(x) ± from_degrees(y)` are the infinity of the sign of `x`, and that of
`-from_degrees(x)` is the infinity of the opposite sign. -/
theorem C7_add_sub_neg_in_degrees :
    (∀ x y : ℚ,
        (AngleT.operator_add (AngleT.from_degrees x) (AngleT.from_degrees y)).get_degrees
          = x + y
        ∧ (AngleT.operator_sub (AngleT.from_degrees x) (AngleT.from_degrees y)).get_degrees
          = x - y
        ∧ (AngleT.operator_neg (AngleT.from_degrees x)).get_degrees = -x)
    ∧ ((AngleT.operator_add (AngleT.from_degrees (lit 90))
          (AngleT.from_degrees (lit 90))).get_degrees = lit 180
      ∧ (AngleT.operator_sub (AngleT.from_degrees (lit 180))
          (AngleT.from_degrees (lit 90))).get_degrees = lit 90
      ∧ (AngleT.operator_neg (AngleT.from_degrees (lit 90))).get_degrees = lit (-90))
    ∧ (∀ (sx sy : Bool) (x y : ℚ), 0 ≤ x → 0 ≤ y → (x + y) * piD ≤ 2 ^ 1024 - 2 ^ 974 →
        (∃ s d, (AngleT.operator_add (AngleT.from_degrees (IEEE.fin sx x : F64))
              (AngleT.from_degrees (IEEE.fin sy y))).get_degrees = IEEE.fin s d
            ∧ |IEEE.signed s d - (IEEE.signed sx x + IEEE.signed sy y)|
                ≤ (x + y) / 2 ^ 50 + 1 / 2 ^ 1066)
        ∧ (∃ s d, (AngleT.operator_sub (AngleT.from_degrees (IEEE.fin sx x : F64))
              (AngleT.from_degrees (IEEE.fin sy y))).get_degrees = IEEE.fin s d
            ∧ |IEEE.signed s d - (IEEE.signed sx x - IEEE.signed sy y)|
                ≤ (x + y) / 2 ^ 50 + 1 / 2 ^ 1066)
        ∧ (∃ d, (AngleT.operator_neg (AngleT.from_degrees (IEEE.fin sx x : F64))).get_degrees
              = IEEE.fin (!sx) d
            ∧ |d - x| ≤ x / 2 ^ 50 + 1 / 2 ^ 1068))
    ∧ (∀ (sx sy : Bool) (x y : ℚ), 2 ^ 1024 ≤ x * piD → 0 ≤ y →
        y * piD ≤ 2 ^ 1024 - 2 ^ 972 →
        (AngleT.operator_add (AngleT.from_degrees (IEEE.fin sx x : F64))
            (AngleT.from_degrees (IEEE.fin sy y))).get_degrees = IEEE.inf sx
        ∧ (AngleT.operator_sub (AngleT.from_degrees (IEEE.fin sx x : F64))
            (AngleT.from_degrees (IEEE.fin sy y))).get_degrees = IEEE.inf sx
        ∧ (AngleT.operator_neg (AngleT.from_degrees (IEEE.fin sx x : F64))).get_degrees
            = IEEE.inf (!sx)) := by
  have hP : piD = 884279719003555 / 281474976710656 := rfl
  have hP0 : (0 : ℚ) ≤ piD := by rw [hP]; norm_num
  refine ⟨?_, by decide!, ?_, ?_⟩
  · intro x y
    refine ⟨?_, ?_, ?_⟩
    · show (x * M_PI_literal / 180 + y * M_PI_literal / 180) * 180 / M_PI_literal = x + y
      unfold M_PI_literal
      ring
    · show (x * M_PI_literal / 180 - y * M_PI_literal / 180) * 180 / M_PI_literal = x - y
      unfold M_PI_literal
      ring
    · show -(x * M_PI_literal / 180) * 180 / M_PI_literal = -x
      unfold M_PI_literal
      ring
  · intro sx sy x y hx hy hsum
    have hxP : 0 ≤ x * piD := mul_nonneg hx hP0
    have hyP : 0 ≤ y * piD := mul_nonneg hy hP0
    have hsum' : x * piD + y * piD ≤ 2 ^ 1024 - 2 ^ 974 := by rw [← add_mul]; exact hsum
    obtain ⟨rx, hrx, ex, bx⟩ := from_degrees64 sx x hx (by linarith)
    obtain ⟨ry, hry, ey, bY⟩ := from_degrees64 sy y hy (by linarith)
    refine ⟨?_, ?_, ?_⟩
    · rw [ex, ey]
      exact add_get_degrees64 sx sy x y rx ry hx hy hsum hrx hry bx bY
    · rw [ex, ey]
      obtain ⟨s, d, hd, bd⟩ :=
        add_get_degrees64 sx (!sy) x y rx ry hx hy hsum hrx hry bx bY
      refine ⟨s, d, hd, ?_⟩
      have e : IEEE.signed sx x - IEEE.signed sy y
          = IEEE.signed sx x + IEEE.signed (!sy) y := by
        cases sy <;> simp only [IEEE.signed_true, IEEE.signed_false, Bool.not_true,
          Bool.not_false] <;> ring
      rw [e]
      exact bd
    · rw [ex]
      have bx' := abs_le.mp bx
      rw [hP] at bx' hsum' hxP hyP
      obtain ⟨d, _, hd, bd⟩ := get_degrees64 (!sx) rx hrx (by linarith [bx'.2])
      have bd' := abs_le.mp bd
      rw [hP] at bd'
      refine ⟨d, hd, ?_⟩
      rw [abs_le]
      constructor <;> linarith [bx'.1, bx'.2, bd'.1, bd'.2]
  · intro sx sy x y hx hy hyb
    obtain ⟨ry, _, ey, _⟩ := from_degrees64 sy y hy hyb
    rw [from_degrees64_overflow sx x hx, ey]
    refine ⟨?_, ?_, ?_⟩
    · show AngleT.get_degrees
        ({ radians := IEEE.add (IEEE.inf sx) (IEEE.fin sy ry) } : Angle) = _
      exact get_degrees64_inf sx
    · show AngleT.get_degrees
        ({ radians := IEEE.add (IEEE.inf sx) (IEEE.neg (IEEE.fin sy ry)) } : Angle) = _
      exact get_degrees64_inf sx
    · show AngleT.get_degrees ({ radians := IEEE.neg (IEEE.inf sx) } : Angle) = _
      exact get_degrees64_inf (!sx)

/-- C7, the bounds in double precision: at `x = 3`, `y = -2` the degrees value of
`from_degrees(3) + from_degrees(-2)` is finite and within `5 / 2^50 + 2^-1066` of `1`; at
`x = 2^1021`, `y = 0` that of the sum is finite and within the bound of `2^1021`; and at
`x = 2^1023`, `y = -1` that of the sum is `+Infinity`. -/
theorem C7_add_sub_neg_in_degrees_witness :
    (∃ s d, (AngleT.operator_add (AngleT.from_degrees (IEEE.fin false 3 : F64))
          (AngleT.from_degrees (IEEE.fin true 2))).get_degrees = IEEE.fin s d
      ∧ |IEEE.signed s d - (IEEE.signed false 3 + IEEE.signed true 2)|
          ≤ (3 + 2) / 2 ^ 50 + 1 / 2 ^ 1066)
    ∧ (∃ s d, (AngleT.operator_add (AngleT.from_degrees (IEEE.fin false (2 ^ 1021) : F64))
          (AngleT.from_degrees (IEEE.fin false 0))).get_degrees = IEEE.fin s d
      ∧ |IEEE.signed s d - (IEEE.signed false (2 ^ 1021) + IEEE.signed false 0)|
          ≤ (2 ^ 1021 + 0) / 2 ^ 50 + 1 / 2 ^ 1066)
    ∧ (AngleT.operator_add (AngleT.from_degrees (IEEE.fin false (2 ^ 1023) : F64))
          (AngleT.from_degrees (IEEE.fin true 1))).get_degrees = IEEE.inf false :=
  ⟨(C7_add_sub_neg_in_degrees.2.2.1 false true 3 2 (by norm_num) (by norm_num)
      (by unfold piD; norm_num)).1,
    (C7_add_sub_neg_in_degrees.2.2.1 false false (2 ^ 1021) 0 (by norm_num) (by norm_num)
      (by unfold piD; norm_num)).1,
    (C7_add_sub_neg_in_degrees.2.2.2 false true (2 ^ 1023) 1 (by unfold piD; norm_num)
      (by norm_num) (by unfold piD; norm_num)).1⟩

/-- C7 fails as stated in double precision: with `x = 2^1023` and `y = 0` the sum `x + y`
is the finite double `2^1023`, but `from_degrees(x)` is already `+Infinity`, and so is
`(from_degrees(x) + from_degrees(y)).get_degrees()`. -/
theorem C7_overflow_counterexample :
    Scalar.add (lit (2 ^ 1023)) (lit 0) = IEEE.fin false (2 ^ 1023)
    ∧ (AngleT.operator_add (AngleT.from_degrees (lit (2 ^ 1023)))
        (AngleT.from_degrees (lit 0))).get_degrees = IEEE.inf false
    ∧ Scalar.eq (AngleT.operator_add (AngleT.from_degrees (lit (2 ^ 1023)))
        (AngleT.from_degrees (lit 0))).get_degrees (Scalar.add (lit (2 ^ 1023)) (lit 0))
        = false := by
  decide!

/-- C8, amended: in exact arithmetic scaling an angle by `k` scales its degrees value by
`k`, and dividing by `k ≠ 0` divides it.  In double precision `from_degrees(90) * 2` and
`from_degrees(180) / 2` read back as exactly `180` and `90`.  Every finite double `k` has
`|k| ≤ 2^1024`, and `|k| ≥ 2^-1074` unless it is zero.  For all finite `d` and `k` in that
range with `|d| * M_PI ≤ 2^1024 - 2^974` and `|d * k| * M_PI ≤ 2^1024 - 2^974`, the products
exact and `M_PI` the double, the degrees value of `from_degrees(d) * k` is finite, has the
sign of `d * k` and is within `|d * k| / 2^50 + (|k| + 1) / 2^1068` of it; for `k ≠ 0` in
that range with `|d| * M_PI ≤ 2^1024 - 2^974` and `|d / k| * M_PI ≤ 2^1024 - 2^974` that of
`from_degrees(d) / k` is finite, has the sign of `d / k` and is within
`|d / k| / 2^50 + (1 / |k| + 1) / 2^1068` of it.  For every finite `d` with
`|d| * M_PI ≥ 2^1024` the degrees value of `from_degrees(d) * k`, for finite `k ≠ 0`, and that
of `from_degrees(d) / k`, for every finite `k`, is the infinity of the sign of `d` times the
sign of `k`. -/
theorem C8_scaling_in_degrees :
    (∀ d k : ℚ,
        (AngleT.operator_mul (AngleT.from_degrees d) k).get_degrees = d * k
        ∧ (k ≠ 0 → (AngleT.operator_div (AngleT.from_degrees d) k).get_degrees = d / k))
    ∧ ((AngleT.operator_mul (AngleT.from_degrees (lit 90)) (lit 2)).get_degrees = lit 180
      ∧ (AngleT.operator_div (AngleT.from_degrees (lit 180)) (lit 2)).get_degrees = lit 90)
    ∧ (∀ (t : Bool) (k : ℚ), (IEEE.fin t k : F64).Valid →
        k ≤ 2 ^ 1024 ∧ (k ≠ 0 → 1 / 2 ^ 1074 ≤ k))
    ∧ (∀ (s t : Bool) (q k : ℚ), 0 ≤ q → q * piD ≤ 2 ^ 1024 - 2 ^ 974 → 0 ≤ k →
        k ≤ 2 ^ 1024 → q * k * piD ≤ 2 ^ 1024 - 2 ^ 974 →
        ∃ d, (AngleT.operator_mul (AngleT.from_degrees (IEEE.fin s q : F64))
              (IEEE.fin t k)).get_degrees = IEEE.fin (xor s t) d
          ∧ |d - q * k| ≤ q * k / 2 ^ 50 + (k + 1) / 2 ^ 1068)
    ∧ (∀ (s t : Bool) (q k : ℚ), 0 ≤ q → q * piD ≤ 2 ^ 1024 - 2 ^ 974 →
        1 / 2 ^ 1074 ≤ k → q / k * piD ≤ 2 ^ 1024 - 2 ^ 974 →
        ∃ d, (AngleT.operator_div (AngleT.from_degrees (IEEE.fin s q : F64))
              (IEEE.fin t k)).get_degrees = IEEE.fin (xor s t) d
          ∧ |d - q / k| ≤ q / k / 2 ^ 50 + (1 / k + 1) / 2 ^ 1068)
    ∧ (∀ (s t : Bool) (q k : ℚ), 2 ^ 1024 ≤ q * piD →
        (k ≠ 0 → (AngleT.operator_mul (AngleT.from_degrees (IEEE.fin s q : F64))
              (IEEE.fin t k)).get_degrees = IEEE.inf (xor s t))
        ∧ (AngleT.operator_div (AngleT.from_degrees (IEEE.fin s q : F64))
              (IEEE.fin t k)).get_degrees = IEEE.inf (xor s t)) := by
  have hP : piD = 884279719003555 / 281474976710656 := rfl
  refine ⟨?_, by decide!, fun _ k hk => representable64_bounds k hk, ?_, ?_, ?_⟩
  · intro d k
    refine ⟨?_, fun _ => ?_⟩
    · show d * M_PI_literal / 180 * k * 180 / M_PI_literal = d * k
      unfold M_PI_literal
      ring
    · show d * M_PI_literal / 180 / k * 180 / M_PI_literal = d / k
      unfold M_PI_literal
      ring
  · intro s t q k hq hqb hk hkb hqk
    obtain ⟨r, hr, er, br⟩ := from_degrees64 s q hq (by linarith)
    have br' := abs_le.mp br
    rw [hP] at br' hqk
    have h1 := mul_le_mul_of_nonneg_right br'.1 hk
    have h2 := mul_le_mul_of_nonneg_right br'.2 hk
    have hqk0 : 0 ≤ q * k := mul_nonneg hq hk
    obtain ⟨m, hm, em, bm⟩ := mul64 s t r k hr hk (by linarith)
    have bm' := abs_le.mp bm
    obtain ⟨d, _, ed, bd⟩ := get_degrees64 (xor s t) m hm (by linarith [bm'.2])
    have bd' := abs_le.mp bd
    rw [hP] at bd'
    refine ⟨d, ?_, ?_⟩
    · rw [er]
      show AngleT.get_degrees ({ radians := IEEE.mul (IEEE.fin s r) (IEEE.fin t k) } : Angle) = _
      rw [em, ed]
    · rw [abs_le]
      constructor <;> linarith [bm'.1, bm'.2, bd'.1, bd'.2]
  · intro s t q k hq hqb hk hqk
    have hkpos : 0 < k := lt_of_lt_of_le (by norm_num) hk
    have hki : 1 / k ≤ 2 ^ 1074 := by
      rw [div_le_iff₀ hkpos]
      linarith
    have hki0 : 0 ≤ 1 / k := le_of_lt (one_div_pos.mpr hkpos)
    obtain ⟨r, hr, er, br⟩ := from_degrees64 s q hq (by linarith)
    have br' := abs_le.mp br
    rw [hP] at br'
    have h1 := mul_le_mul_of_nonneg_right br'.1 hki0
    have h2 := mul_le_mul_of_nonneg_right br'.2 hki0
    have e1 : r / k = r * (1 / k) := by ring
    have e2 : q / k = q * (1 / k) := by ring
    rw [e2] at hqk ⊢
    rw [hP] at hqk
    have hqk0 : 0 ≤ q * (1 / k) := mul_nonneg hq hki0
    obtain ⟨m, hm, em, bm⟩ := div64 s t r k hr hkpos (by rw [e1]; linarith)
    rw [e1] at bm
    have bm' := abs_le.mp bm
    obtain ⟨d, _, ed, bd⟩ := get_degrees64 (xor s t) m hm (by linarith [bm'.2])
    have bd' := abs_le.mp bd
    rw [hP] at bd'
    refine ⟨d, ?_, ?_⟩
    · rw [er]
      show AngleT.get_degrees ({ radians := IEEE.div (IEEE.fin s r) (IEEE.fin t k) } : Angle) = _
      rw [em, ed]
    · rw [abs_le]
      constructor <;> linarith [bm'.1, bm'.2, bd'.1, bd'.2]
  · intro s t q k hq
    rw [from_degrees64_overflow s q hq]
    refine ⟨fun hk => ?_, ?_⟩
    · show AngleT.get_degrees
        ({ radians := IEEE.mul (IEEE.inf s) (IEEE.fin t k) } : Angle) = _
      have : IEEE.mul (IEEE.inf s : F64) (IEEE.fin t k) = IEEE.inf (xor s t) := by
        simp [IEEE.mul, hk]
      rw [this]
      exact get_degrees64_inf _
    · show AngleT.get_degrees
        ({ radians := IEEE.div (IEEE.inf s) (IEEE.fin t k) } : Angle) = _
      exact get_degrees64_inf _

/-- C8, the bounds in double precision at `d = 90`, `k = 2`, at `d = 180`, `k = 2`, and at
`d = 2^-10` with the finite double `k = 3 * 2^1022`; and the overflow at `d = 2^1023`,
`k = -1`. -/
theorem C8_scaling_in_degrees_witness :
    (∃ d, (AngleT.operator_mul (AngleT.from_degrees (IEEE.fin false 90 : F64))
          (IEEE.fin false 2)).get_degrees = IEEE.fin (xor false false) d
      ∧ |d - 90 * 2| ≤ 90 * 2 / 2 ^ 50 + (2 + 1) / 2 ^ 1068)
    ∧ (∃ d, (AngleT.operator_div (AngleT.from_degrees (IEEE.fin false 180 : F64))
          (IEEE.fin false 2)).get_degrees = IEEE.fin (xor false false) d
      ∧ |d - 180 / 2| ≤ 180 / 2 / 2 ^ 50 + (1 / 2 + 1) / 2 ^ 1068)
    ∧ (∃ d, (AngleT.operator_mul (AngleT.from_degrees (IEEE.fin false (1 / 2 ^ 10) : F64))
          (IEEE.fin false (3 * 2 ^ 1022))).get_degrees = IEEE.fin (xor false false) d
      ∧ |d - 1 / 2 ^ 10 * (3 * 2 ^ 1022)|
          ≤ 1 / 2 ^ 10 * (3 * 2 ^ 1022) / 2 ^ 50 + (3 * 2 ^ 1022 + 1) / 2 ^ 1068)
    ∧ (AngleT.operator_mul (AngleT.from_degrees (IEEE.fin false (2 ^ 1023) : F64))
          (IEEE.fin true 1)).get_degrees = IEEE.inf (xor false true) :=
  ⟨C8_scaling_in_degrees.2.2.2.1 false false 90 2 (by norm_num) (by unfold piD; norm_num)
      (by norm_num) (by norm_num) (by unfold piD; norm_num),
    C8_scaling_in_degrees.2.2.2.2.1 false false 180 2 (by norm_num) (by unfold piD; norm_num)
      (by norm_num) (by unfold piD; norm_num),
    C8_scaling_in_degrees.2.2.2.1 false false (1 / 2 ^ 10) (3 * 2 ^ 1022) (by norm_num)
      (by unfold piD; norm_num) (by norm_num) (by norm_num) (by unfold piD; norm_num),
    (C8_scaling_in_degrees.2.2.2.2.2 false true (2 ^ 1023) 1 (by unfold piD; norm_num)).1
      (by norm_num)⟩

/-- C8 fails as stated in double precision: with `d = 2^1023` and `k = 1` both `d * k`
and `d / k` are the finite double `2^1023`, but `from_degrees(d)` is already `+Infinity`
and so are the degrees values of `from_degrees(d) * k` and `from_degrees(d) / k`. -/
theorem C8_overflow_counterexample :
    Scalar.mul (lit (2 ^ 1023)) (lit 1) = IEEE.fin false (2 ^ 1023)
    ∧ (AngleT.operator_mul (AngleT.from_degrees (lit (2 ^ 1023))) (lit 1)).get_degrees
        = IEEE.inf false
    ∧ Scalar.div (lit (2 ^ 1023)) (lit 1) = IEEE.fin false (2 ^ 1023)
    ∧ (AngleT.operator_div (AngleT.from_degrees (lit (2 ^ 1023))) (lit 1)).get_degrees
        = IEEE.inf false := by
  decide!

/-- C9, amended: `operator==` and `operator!=` compare the radians values, with no
reduction modulo a full turn: `from_degrees(360) != from_degrees(0)` and
`from_degrees(359) != from_degrees(-1)`.  In exact arithmetic different degrees values
always give different angles; in double precision they do whenever the two values are
finite, of magnitude at most `2^50`, and at least one degree apart, hence whenever they
differ by a non-zero multiple of 360 in that range. -/
theorem C9_equality_not_normalised :
    (∀ (T : Type) [Scalar T] (a b : AngleT T),
        AngleT.operator_eq a b = Scalar.eq a.radians b.radians
        ∧ AngleT.operator_ne a b = !(Scalar.eq a.radians b.radians))
    ∧ AngleT.operator_ne (AngleT.from_degrees (lit 360)) (AngleT.from_degrees (lit 0)) = true
    ∧ AngleT.operator_ne (AngleT.from_degrees (lit 359)) (AngleT.from_degrees (lit (-1))) = true
    ∧ (∀ d1 d2 : ℚ, d1 ≠ d2 →
        AngleT.operator_ne (AngleT.from_degrees d1) (AngleT.from_degrees d2) = true)
    ∧ (∀ (s1 s2 : Bool) (q1 q2 : ℚ), 0 ≤ q1 → q1 ≤ 2 ^ 50 → 0 ≤ q2 → q2 ≤ 2 ^ 50 →
        1 ≤ |IEEE.signed s1 q1 - IEEE.signed s2 q2| →
        AngleT.operator_ne (AngleT.from_degrees (IEEE.fin s1 q1 : F64))
          (AngleT.from_degrees (IEEE.fin s2 q2)) = true) := by
  refine ⟨fun _ _ _ _ => ⟨rfl, rfl⟩, by decide!, by decide!, ?_, ?_⟩
  · intro d1 d2 hne
    show (!decide (d1 * M_PI_literal / 180 = d2 * M_PI_literal / 180)) = true
    have : ¬ (d1 * M_PI_literal / 180 = d2 * M_PI_literal / 180) := by
      intro h
      apply hne
      unfold M_PI_literal at h
      linarith
    simp [this]
  · intro s1 s2 q1 q2 h1 hq1 h2 hq2 hsep
    rcases le_abs'.mp hsep with h | h
    · have hlt := from_degrees64_separated s1 s2 q1 q2 h1 h2 hq1 hq2 (by linarith)
      have := (IEEE.eq_false_of_lt _ _ hlt).1
      show (!IEEE.eq _ _) = true
      rw [this]
      rfl
    · have hlt := from_degrees64_separated s2 s1 q2 q1 h2 h1 hq2 hq1 (by linarith)
      have := (IEEE.eq_false_of_lt _ _ hlt).2
      show (!IEEE.eq _ _) = true
      rw [this]
      rfl

/-- C9, the separation in double precision at `720` and `0` degrees, two full turns
apart. -/
theorem C9_equality_not_normalised_witness :
    AngleT.operator_ne (AngleT.from_degrees (IEEE.fin false 720 : F64))
      (AngleT.from_degrees (IEEE.fin false 0)) = true :=
  C9_equality_not_normalised.2.2.2.2 false false 720 0 (by norm_num) (by norm_num)
    (by norm_num) (by norm_num) (by norm_num [IEEE.signed])

/-- C9 fails as stated in double precision: the doubles `1.9` and `1.9000000000000001`
are different, and so are `2^-1074` and `0`, yet within each pair `from_degrees` rounds
both to the same radians value and `operator!=` returns false. -/
theorem C9_rounding_collision :
    lit (8556839292003943 / 4503599627370496)
        = IEEE.fin false (8556839292003943 / 4503599627370496)
    ∧ Scalar.eq (lit (19 / 10)) (lit (8556839292003943 / 4503599627370496)) = false
    ∧ AngleT.operator_ne (AngleT.from_degrees (lit (19 / 10)))
        (AngleT.from_degrees (lit (8556839292003943 / 4503599627370496))) = false
    ∧ lit (1 / 2 ^ 1074) = IEEE.fin false (1 / 2 ^ 1074)
    ∧ Scalar.eq (lit (1 / 2 ^ 1074)) (lit 0) = false
    ∧ AngleT.operator_ne (AngleT.from_degrees (lit (1 / 2 ^ 1074)))
        (AngleT.from_degrees (lit 0)) = false := by
  decide!

/-- C10: a default-constructed angle holds `+0.0`: `get_radians()` and `get_degrees()`
are zero and it compares equal to `from_radians(0)` and to `from_degrees(0)`, in double
precision and in exact arithmetic alike. -/
theorem C10_default_is_zero :
    (∀ (T : Type) [Scalar T], (AngleT.ctor_default : AngleT T).get_radians = Scalar.zero)
    ∧ ((AngleT.ctor_default : Angle).get_radians = IEEE.fin false 0
      ∧ (AngleT.ctor_default : Angle).get_degrees = IEEE.fin false 0
      ∧ Scalar.eq (AngleT.ctor_default : Angle).get_radians (lit 0) = true
      ∧ Scalar.eq (AngleT.ctor_default : Angle).get_degrees (lit 0) = true
      ∧ AngleT.operator_eq (AngleT.ctor_default : Angle) (AngleT.from_radians (lit 0)) = true
      ∧ AngleT.operator_eq (AngleT.ctor_default : Angle) (AngleT.from_degrees (lit 0)) = true)
    ∧ ((AngleT.ctor_default : AngleT ℚ).get_radians = 0
      ∧ (AngleT.ctor_default : AngleT ℚ).get_degrees = 0
      ∧ AngleT.operator_eq (AngleT.ctor_default : AngleT ℚ) (AngleT.from_radians 0) = true
      ∧ AngleT.operator_eq (AngleT.ctor_default : AngleT ℚ) (AngleT.from_degrees 0) = true) :=
  ⟨fun _ _ => rfl, by decide!, by decide!⟩

/-- C11: `sin()`, `cos()` and `tan()` return the function of the math library at the stored
radians value, so `from_degrees(d).sin()` is that function at `(d * M_PI) / 180.0`, and
likewise for `cos` and `tan`.  In exact arithmetic `from_degrees(180).sin()` is `0`,
`from_degrees(90).sin()` is `1` and `from_degrees(0).cos()` is `1`.  In double precision
`from_degrees(180)` stores the double `M_PI`, where the true sine is within `2^-52` of `0`,
`from_degrees(90)` stores half of it, where the true sine is within `2^-52` of `1`, and
`from_degrees(0)` stores `+0.0`, where the cosine is `1`: a library sine within `ε` of the
true sine returns a value within `ε + 2^-52` of `0` and of `1`, and a library cosine that
is `1` at zero returns `1`. -/
theorem C11_sin_cos_tan :
    (∀ (T : Type) [Scalar T] [Cmath T] (a : AngleT T),
        a.sin = Cmath.sin a.radians ∧ a.cos = Cmath.cos a.radians
        ∧ a.tan = Cmath.tan a.radians)
    ∧ (∀ (T : Type) [Scalar T] [Cmath T] (d : T),
        (AngleT.from_degrees d).sin
          = Cmath.sin (Scalar.div (Scalar.mul d Scalar.M_PI) Scalar.c180)
        ∧ (AngleT.from_degrees d).cos
          = Cmath.cos (Scalar.div (Scalar.mul d Scalar.M_PI) Scalar.c180)
        ∧ (AngleT.from_degrees d).tan
          = Cmath.tan (Scalar.div (Scalar.mul d Scalar.M_PI) Scalar.c180))
    ∧ (∀ d : ℝ,
        (AngleT.from_degrees d).sin = Real.sin (d * Real.pi / 180)
        ∧ (AngleT.from_degrees d).cos = Real.cos (d * Real.pi / 180)
        ∧ (AngleT.from_degrees d).tan = Real.tan (d * Real.pi / 180))
    ∧ ((AngleT.from_degrees (180 : ℝ)).sin = 0
      ∧ (AngleT.from_degrees (90 : ℝ)).sin = 1
      ∧ (AngleT.from_degrees (0 : ℝ)).cos = 1)
    ∧ ((AngleT.from_degrees (lit 180)).get_radians = IEEE.fin false piD
      ∧ |Real.sin (piD : ℝ)| ≤ 1 / 2 ^ 52
      ∧ (AngleT.from_degrees (lit 90)).get_radians = IEEE.fin false (piD / 2)
      ∧ |Real.sin ((piD / 2 : ℚ) : ℝ) - 1| ≤ 1 / 2 ^ 52
      ∧ (AngleT.from_degrees (lit 0)).get_radians = IEEE.fin false 0
      ∧ Real.cos ((0 : ℚ) : ℝ) = 1)
    ∧ (∀ (m : Cmath F64) (ε : ℝ),
        ((m.sin (IEEE.fin false piD)).Within (Real.sin (piD : ℝ)) ε →
          (@AngleT.sin F64 m (AngleT.from_degrees (lit 180))).Within 0 (ε + 1 / 2 ^ 52))
        ∧ ((m.sin (IEEE.fin false (piD / 2))).Within (Real.sin ((piD / 2 : ℚ) : ℝ)) ε →
          (@AngleT.sin F64 m (AngleT.from_degrees (lit 90))).Within 1 (ε + 1 / 2 ^ 52))
        ∧ (m.cos (IEEE.fin false 0) = lit 1 →
          @AngleT.cos F64 m (AngleT.from_degrees (lit 0)) = lit 1)) := by
  have e180 : (AngleT.from_degrees (lit 180)).get_radians = IEEE.fin false piD := by decide!
  have e90 : (AngleT.from_degrees (lit 90)).get_radians = IEEE.fin false (piD / 2) := by
    decide!
  have e0 : (AngleT.from_degrees (lit 0)).get_radians = IEEE.fin false 0 := by decide!
  refine ⟨fun _ _ _ _ => ⟨rfl, rfl, rfl⟩, fun _ _ _ _ => ⟨rfl, rfl, rfl⟩,
    fun _ => ⟨rfl, rfl, rfl⟩, ⟨?_, ?_, ?_⟩,
    ⟨e180, sin_piD_small, e90, sin_half_piD_near_one, e0, by simp⟩, ?_⟩
  · show Real.sin (180 * Real.pi / 180) = 0
    rw [show (180 : ℝ) * Real.pi / 180 = Real.pi by ring]
    exact Real.sin_pi
  · show Real.sin (90 * Real.pi / 180) = 1
    rw [show (90 : ℝ) * Real.pi / 180 = Real.pi / 2 by ring]
    exact Real.sin_pi_div_two
  · show Real.cos (0 * Real.pi / 180) = 1
    rw [show (0 : ℝ) * Real.pi / 180 = 0 by ring]
    exact Real.cos_zero
  · intro m ε
    refine ⟨fun h => ?_, fun h => ?_, fun h => ?_⟩
    · show (m.sin (AngleT.from_degrees (lit 180)).get_radians).Within 0 (ε + 1 / 2 ^ 52)
      rw [e180]
      exact h.shift 0 _ (by rw [sub_zero]; exact sin_piD_small)
    · show (m.sin (AngleT.from_degrees (lit 90)).get_radians).Within 1 (ε + 1 / 2 ^ 52)
      rw [e90]
      exact h.shift 1 _ sin_half_piD_near_one
    · show m.cos (AngleT.from_degrees (lit 0)).get_radians = lit 1
      rw [e0]
      exact h

/-- C11, with a library that returns the double `1.2246467991473532e-16`, within `2^-66`
of the true sine at the double `M_PI`: `from_degrees(180).sin()` is within
`2^-66 + 2^-52` of `0`. -/
theorem C11_sin_cos_tan_witness :
    (@AngleT.sin F64 (constLibm (IEEE.fin false (4967757600021511 / 2 ^ 105)))
      (AngleT.from_degrees (lit 180))).Within 0 (1 / 2 ^ 66 + 1 / 2 ^ 52) :=
  (C11_sin_cos_tan.2.2.2.2.2 (constLibm (IEEE.fin false (4967757600021511 / 2 ^ 105)))
    (1 / 2 ^ 66)).1 ⟨false, 4967757600021511 / 2 ^ 105, rfl, sin_piD_value⟩

/-- C12, amended: `asin()`, `acos()` and `atan()` return the function of the math library
at the stored scalar itself, with no conversion of the argument or of the result, which
is a scalar: `from_radians(x).asin()` is `asin(x)`, and likewise `acos`, `atan`.  In exact
arithmetic `from_radians(from_radians(x).asin()).sin()` is `x` and
`from_radians(from_radians(x).acos()).cos()` is `x` for every `x` in `[-1, 1]`.  In double
precision, with an accurate math library, one whose functions return a double within
`|v| / 2^52 + 2^-78` of the exact value `v`, and there are such libraries, both round trips
return at every finite double `x` of `[-1, 1]` a finite value within `2^-49` of `x`, but not
always `x`: `from_radians(from_radians(0).acos()).cos()` is finite of magnitude at least
`2^-56`, so not equal to `0`, and there is a double `x` in `[31/64, 1/2)` at which
`from_radians(from_radians(x).asin()).sin()` is not equal to `x`. -/
theorem C12_inverse_trig_on_scalar :
    (∀ (T : Type) [Scalar T] [Cmath T] (a : AngleT T),
        a.asin = Cmath.asin a.radians ∧ a.acos = Cmath.acos a.radians
        ∧ a.atan = Cmath.atan a.radians)
    ∧ (∀ (T : Type) [Scalar T] [Cmath T] (x : T),
        (AngleT.from_radians x).asin = Cmath.asin x
        ∧ (AngleT.from_radians x).acos = Cmath.acos x
        ∧ (AngleT.from_radians x).atan = Cmath.atan x)
    ∧ (∀ x : ℝ,
        (AngleT.from_radians x).asin = Real.arcsin x
        ∧ (AngleT.from_radians x).acos = Real.arccos x
        ∧ (AngleT.from_radians x).atan = Real.arctan x)
    ∧ (∀ x : ℝ, -1 ≤ x → x ≤ 1 →
        (AngleT.from_radians (AngleT.from_radians x).asin).sin = x
        ∧ (AngleT.from_radians (AngleT.from_radians x).acos).cos = x)
    ∧ (∃ m : Cmath F64, m.Accurate)
    ∧ (∀ m : Cmath F64, m.Accurate →
        (∀ (s : Bool) (q : ℚ), binary64.Representable q → q ≤ 1 →
          (@AngleT.sin F64 m (AngleT.from_radians
              (@AngleT.asin F64 m (AngleT.from_radians (IEEE.fin s q))))).Within
            ((IEEE.signed s q : ℚ) : ℝ) (1 / 2 ^ 49)
          ∧ (@AngleT.cos F64 m (AngleT.from_radians
              (@AngleT.acos F64 m (AngleT.from_radians (IEEE.fin s q))))).Within
            ((IEEE.signed s q : ℚ) : ℝ) (1 / 2 ^ 49))
        ∧ (∃ (s : Bool) (q : ℚ),
            @AngleT.cos F64 m (AngleT.from_radians
              (@AngleT.acos F64 m (AngleT.from_radians (lit 0)))) = IEEE.fin s q
            ∧ 1 / 2 ^ 56 ≤ q)
        ∧ Scalar.eq
            (@AngleT.cos F64 m (AngleT.from_radians
              (@AngleT.acos F64 m (AngleT.from_radians (lit 0)))))
            (lit 0) = false
        ∧ (∃ q : ℚ, binary64.Representable q ∧ 31 / 64 ≤ q ∧ q < 1 / 2
            ∧ Scalar.eq
                (@AngleT.sin F64 m (AngleT.from_radians
                  (@AngleT.asin F64 m (AngleT.from_radians (IEEE.fin false q)))))
                (IEEE.fin false q) = false)) := by
  have h0 : lit 0 = IEEE.fin false 0 := by decide!
  refine ⟨fun _ _ _ _ => ⟨rfl, rfl, rfl⟩, fun _ _ _ _ => ⟨rfl, rfl, rfl⟩,
    fun _ => ⟨rfl, rfl, rfl⟩, ?_, exists_accurate, ?_⟩
  · intro x h1 h2
    exact ⟨Real.sin_arcsin h1 h2, Real.cos_arccos h1 h2⟩
  · intro m hm
    obtain ⟨s, q, hq, hb⟩ := cos_acos_zero_accurate m hm
    refine ⟨fun s q hq h1 => round_trip_accurate m hm s q hq h1, ⟨s, q, ?_, hb⟩, ?_,
      sin_asin_fails_accurate m hm⟩
    · rw [h0]
      exact hq
    · rw [h0]
      show IEEE.eq (m.cos (m.acos (IEEE.fin false 0))) (IEEE.fin false 0) = false
      rw [hq]
      simp only [IEEE.eq, decide_eq_false_iff_not]
      have hpos : (0 : ℚ) < q := lt_of_lt_of_le (by norm_num) hb
      cases s
      · rw [IEEE.signed_false, IEEE.signed_false]
        exact ne_of_gt hpos
      · rw [IEEE.signed_true, IEEE.signed_false]
        linarith

/-- C12, in exact arithmetic at `x = 1/2`, inside `[-1, 1]`; and in double precision with
an accurate math library at `x = 1/2`, where both round trips are within `2^-49` of
`1/2`. -/
theorem C12_inverse_trig_on_scalar_witness :
    ((AngleT.from_radians (AngleT.from_radians (1 / 2 : ℝ)).asin).sin = 1 / 2
      ∧ (AngleT.from_radians (AngleT.from_radians (1 / 2 : ℝ)).acos).cos = 1 / 2)
    ∧ ∃ m : Cmath F64, m.Accurate
        ∧ binary64.Representable (1 / 2) ∧ (1 / 2 : ℚ) ≤ 1
        ∧ (@AngleT.sin F64 m (AngleT.from_radians
            (@AngleT.asin F64 m (AngleT.from_radians (IEEE.fin false (1 / 2)))))).Within
          ((IEEE.signed false (1 / 2) : ℚ) : ℝ) (1 / 2 ^ 49)
        ∧ (@AngleT.cos F64 m (AngleT.from_radians
            (@AngleT.acos F64 m (AngleT.from_radians (IEEE.fin false (1 / 2)))))).Within
          ((IEEE.signed false (1 / 2) : ℚ) : ℝ) (1 / 2 ^ 49) :=
  have h : binary64.Representable (1 / 2) :=
    ⟨1, -1, by decide, by decide, by decide, by norm_num⟩
  ⟨C12_inverse_trig_on_scalar.2.2.2.1 (1 / 2) (by norm_num) (by norm_num),
    C12_inverse_trig_on_scalar.2.2.2.2.1.elim fun m hm =>
      ⟨m, hm, h, by norm_num,
        (C12_inverse_trig_on_scalar.2.2.2.2.2 m hm).1 false (1 / 2) h (by norm_num)⟩⟩

/-- C12 fails as stated in double precision.  There are accurate math libraries, and with
every one of them `from_radians(from_radians(0).acos()).cos()` does not compare equal to
`0`, and `from_radians(from_radians(x).asin()).sin()` does not compare equal to `x` at some
double `x` of `[31/64, 1/2)`. -/
theorem C12_round_trip_counterexample :
    (∃ m : Cmath F64, m.Accurate)
    ∧ (∀ m : Cmath F64, m.Accurate →
        Scalar.eq
            (@AngleT.cos F64 m (AngleT.from_radians
              (@AngleT.acos F64 m (AngleT.from_radians (lit 0)))))
            (lit 0) = false
        ∧ (∃ q : ℚ, binary64.Representable q ∧ 31 / 64 ≤ q ∧ q < 1 / 2
            ∧ Scalar.eq
                (@AngleT.sin F64 m (AngleT.from_radians
                  (@AngleT.asin F64 m (AngleT.from_radians (IEEE.fin false q)))))
                (IEEE.fin false q) = false)) := by
  have h0 : lit 0 = IEEE.fin false 0 := by decide!
  refine ⟨exists_accurate, fun m hm => ⟨?_, sin_asin_fails_accurate m hm⟩⟩
  obtain ⟨s, q, hq, hb⟩ := cos_acos_zero_accurate m hm
  rw [h0]
  show IEEE.eq (m.cos (m.acos (IEEE.fin false 0))) (IEEE.fin false 0) = false
  rw [hq]
  simp only [IEEE.eq, decide_eq_false_iff_not]
  have hpos : (0 : ℚ) < q := lt_of_lt_of_le (by norm_num) hb
  cases s
  · rw [IEEE.signed_false, IEEE.signed_false]
    exact ne_of_gt hpos
  · rw [IEEE.signed_true, IEEE.signed_false]
    linarith

/-- C13, amended: the literal operators are the named constructors of the double-precision
type applied to the `long double` argument converted to `double`: `_deg(x)` is
`Angle::from_degrees` of that double, with radians `(x * M_PI) / 180.0` computed from it,
and `_rad(x)` is `Angle::from_radians` of it, with that double as radians; the two sides
compare equal under `operator==` whenever the double is not NaN.  Where `long double` is
`double` the conversion is the identity: for every literal value `x`,
`_deg(x) == Angle::from_degrees(x)`, `_rad(x) == Angle::from_radians(x)` and
`_rad(x).get_radians() == x`.  Where `long double` is the x87 format the same holds for
every literal whose value is a double. -/
theorem C13_literal_operators :
    (∀ (L : Type) [StaticCast L F64] (x : L),
        operator_deg x = AngleT.from_degrees (StaticCast.cast x : F64)
        ∧ (operator_deg x).get_radians
            = Scalar.div (Scalar.mul (StaticCast.cast x : F64) Scalar.M_PI) Scalar.c180
        ∧ operator_rad x = AngleT.from_radians (StaticCast.cast x : F64)
        ∧ (operator_rad x).get_radians = (StaticCast.cast x : F64)
        ∧ ((StaticCast.cast x : F64) ≠ IEEE.nan →
            AngleT.operator_eq (operator_deg x)
                (AngleT.from_degrees (StaticCast.cast x : F64)) = true
            ∧ AngleT.operator_eq (operator_rad x)
                (AngleT.from_radians (StaticCast.cast x : F64)) = true))
    ∧ (∀ x : F64,
        operator_deg x = AngleT.from_degrees x
        ∧ (operator_deg x).get_radians = Scalar.div (Scalar.mul x Scalar.M_PI) Scalar.c180
        ∧ operator_rad x = AngleT.from_radians x
        ∧ (operator_rad x).get_radians = x)
    ∧ (∀ x : F64, x ≠ IEEE.nan →
        AngleT.operator_eq (operator_deg x) (AngleT.from_degrees x) = true
        ∧ AngleT.operator_eq (operator_rad x) (AngleT.from_radians x) = true)
    ∧ (∀ v : ℚ,
        AngleT.operator_eq (operator_deg (lit v)) (AngleT.from_degrees (lit v)) = true
        ∧ AngleT.operator_eq (operator_rad (lit v)) (AngleT.from_radians (lit v)) = true
        ∧ Scalar.eq (operator_rad (lit v)).get_radians (lit v) = true)
    ∧ (∀ v : ℚ, binary64.Representable |v| →
        operator_deg (litl v) = AngleT.from_degrees (lit v)
        ∧ operator_rad (litl v) = AngleT.from_radians (lit v)
        ∧ AngleT.operator_eq (operator_deg (litl v)) (AngleT.from_degrees (lit v)) = true
        ∧ AngleT.operator_eq (operator_rad (litl v)) (AngleT.from_radians (lit v)) = true
        ∧ IEEE.eq (StaticCast.cast (operator_rad (litl v)).get_radians : F80) (litl v) = true)
    ∧ ((operator_deg (lit 180)).get_radians = IEEE.fin false piD
      ∧ (operator_deg (lit 180)).get_degrees = lit 180
      ∧ (operator_rad (lit (1 / 2))).get_radians = lit (1 / 2)) := by
  have hlit : ∀ v : ℚ, lit v ≠ IEEE.nan := fun v => IEEE.round_ne_nan _ _ _
  refine ⟨fun _ _ x => ⟨rfl, rfl, rfl, rfl, fun hx => ?_⟩, fun _ => ⟨rfl, rfl, rfl, rfl⟩,
    ?_, ?_, ?_, by decide!⟩
  · exact ⟨IEEE.eq_self _ (from_degrees_ne_nan _ hx), IEEE.eq_self _ hx⟩
  · intro x hx
    exact ⟨IEEE.eq_self _ (from_degrees_ne_nan x hx), IEEE.eq_self _ hx⟩
  · intro v
    exact ⟨IEEE.eq_self _ (from_degrees_ne_nan _ (hlit v)), IEEE.eq_self _ (hlit v),
      IEEE.eq_self _ (hlit v)⟩
  · intro v hv
    obtain ⟨h1, h2, h3⟩ := lit_of_representable v hv
    have ed : operator_deg (litl v) = AngleT.from_degrees (lit v) := by
      show AngleT.from_degrees (StaticCast.cast (litl v) : F64) = _
      rw [h3]
    have er : operator_rad (litl v) = AngleT.from_radians (lit v) := by
      show AngleT.from_radians (StaticCast.cast (litl v) : F64) = _
      rw [h3]
    refine ⟨ed, er, ?_, ?_, ?_⟩
    · rw [ed]
      exact IEEE.eq_self _ (from_degrees_ne_nan _ (hlit v))
    · rw [er]
      exact IEEE.eq_self _ (hlit v)
    · rw [er]
      show IEEE.eq (IEEE.convert x87ext (lit v)) (litl v) = true
      rw [h1, h2]
      show IEEE.eq (IEEE.round x87ext _ _) _ = true
      rw [IEEE.round_of_representable _ _ _ (representable_x87_of_double _ hv)]
      exact IEEE.eq_self _ (by simp)

/-- C13, at the literal `90.0`, whose value is a double: with `long double` the x87 format,
`90.0_deg` is `Angle::from_degrees(90.0)` and `90.0_rad` is `Angle::from_radians(90.0)`,
equal under `operator==`, and the radians value of `90.0_rad` compares equal to `90.0`. -/
theorem C13_literal_operators_witness :
    binary64.Representable |(90 : ℚ)|
    ∧ (operator_deg (litl 90) = AngleT.from_degrees (lit 90)
      ∧ operator_rad (litl 90) = AngleT.from_radians (lit 90)
      ∧ AngleT.operator_eq (operator_deg (litl 90)) (AngleT.from_degrees (lit 90)) = true
      ∧ AngleT.operator_eq (operator_rad (litl 90)) (AngleT.from_radians (lit 90)) = true
      ∧ IEEE.eq (StaticCast.cast (operator_rad (litl 90)).get_radians : F80) (litl 90)
          = true) :=
  have h : binary64.Representable |(90 : ℚ)| :=
    ⟨45, 1, by decide, by decide, by decide, by norm_num⟩
  ⟨h, C13_literal_operators.2.2.2.2.1 90 h⟩

/-- C13 fails as stated where `long double` is the x87 format.  The value `1 + 2^-53` is a
`long double`, `_rad` of it stores the double `1.0`, and `_rad(x).get_radians() == x` is
false.  The literal of value `1 + 2^-53 + 2^-70` is read as the `long double` `1 + 2^-53`
in front of the suffix and as the double `1 + 2^-52` as an argument of the named
constructors: `_rad` stores `1.0`, `from_radians` stores `1 + 2^-52`, and `operator==`
is false between `_rad(x)` and `Angle::from_radians(x)` and between `_deg(x)` and
`Angle::from_degrees(x)`. -/
theorem C13_long_double_counterexample :
    litl (1 + 1 / 2 ^ 53) = IEEE.fin false (1 + 1 / 2 ^ 53)
    ∧ (operator_rad (litl (1 + 1 / 2 ^ 53))).get_radians = lit 1
    ∧ IEEE.eq (StaticCast.cast (operator_rad (litl (1 + 1 / 2 ^ 53))).get_radians : F80)
        (litl (1 + 1 / 2 ^ 53)) = false
    ∧ litl (1 + 1 / 2 ^ 53 + 1 / 2 ^ 70) = IEEE.fin false (1 + 1 / 2 ^ 53)
    ∧ (operator_rad (litl (1 + 1 / 2 ^ 53 + 1 / 2 ^ 70))).get_radians = lit 1
    ∧ (AngleT.from_radians (lit (1 + 1 / 2 ^ 53 + 1 / 2 ^ 70))).get_radians
        = IEEE.fin false (1 + 1 / 2 ^ 52)
    ∧ AngleT.operator_eq (operator_rad (litl (1 + 1 / 2 ^ 53 + 1 / 2 ^ 70)))
        (AngleT.from_radians (lit (1 + 1 / 2 ^ 53 + 1 / 2 ^ 70))) = false
    ∧ AngleT.operator_eq (operator_deg (litl (1 + 1 / 2 ^ 53 + 1 / 2 ^ 70)))
        (AngleT.from_degrees (lit (1 + 1 / 2 ^ 53 + 1 / 2 ^ 70))) = false := by
  decide!

/-- C14: dividing an angle by a zero scalar, of either sign, returns an angle and follows
IEEE-754: the radians value of `a / 0` is an infinity, with the sign of `a` times the sign
of the zero, when that of `a` is finite and not zero, and NaN when that of `a` is a zero or
NaN; `a /= 0` leaves the same value in `a`.  Every member is a total function: none
validates its argument or raises. -/
theorem C14_division_by_zero :
    (∀ (s t : Bool) (m : ℚ), m ≠ 0 →
        (AngleT.operator_div ({ radians := IEEE.fin s m } : Angle) (IEEE.fin t 0)).get_radians
          = IEEE.inf (xor s t))
    ∧ (∀ s t : Bool,
        (AngleT.operator_div ({ radians := IEEE.fin s 0 } : Angle) (IEEE.fin t 0)).get_radians
          = IEEE.nan)
    ∧ (∀ t : Bool,
        (AngleT.operator_div ({ radians := IEEE.nan } : Angle) (IEEE.fin t 0)).get_radians
          = IEEE.nan)
    ∧ (∀ (σ : Store F64) (this : Addr) (t : Bool),
        (AngleT.operator_div_assign σ this (IEEE.fin t 0)).1 this
          = AngleT.operator_div (σ this) (IEEE.fin t 0))
    ∧ ((AngleT.operator_div (AngleT.from_degrees (lit 90)) (lit 0)).get_radians
          = IEEE.inf false
      ∧ (AngleT.operator_div (AngleT.from_degrees (lit (-90))) (lit 0)).get_radians
          = IEEE.inf true
      ∧ (AngleT.operator_div (AngleT.from_degrees (lit 90)) (IEEE.neg (lit 0))).get_radians
          = IEEE.inf true
      ∧ (AngleT.operator_div (AngleT.from_degrees (lit 0)) (lit 0)).get_radians = IEEE.nan
      ∧ ((AngleT.operator_div_assign twoRightAngles 0 (lit 0)).1 0).get_radians
          = IEEE.inf false) := by
  refine ⟨?_, ?_, ?_, ?_, by decide!⟩
  · intro s t m hm
    show IEEE.div (IEEE.fin s m) (IEEE.fin t 0) = _
    simp [IEEE.div, hm]
  · intro s t
    show IEEE.div (IEEE.fin s 0) (IEEE.fin t 0) = _
    simp [IEEE.div]
  · intro t
    rfl
  · intro σ this t
    simp [AngleT.operator_div_assign, Store.assign, AngleT.operator_div, AngleT.ctor,
      StaticCast.cast]

/-- C14, at an angle of one radian and the scalar `-0.0`: the quotient holds
`-Infinity`. -/
theorem C14_division_by_zero_witness :
    (AngleT.operator_div ({ radians := IEEE.fin false 1 } : Angle)
      (IEEE.fin true 0)).get_radians = IEEE.inf (xor false true) :=
  C14_division_by_zero.1 false true 1 (by norm_num)

/-- C15: the members of the single-precision instantiation do not return a single-precision
angle.  `AngleT<float>::from_degrees` and `from_radians` are declared to return `Angle`,
the double-precision type, and compute in `double`: `from_degrees(1.0f)` holds the double
`0.017453292519943295`, which is not the single-precision value `0.017453292` that
`1 * π / 180` rounds to. -/
theorem C15_single_precision_returns_double :
    (∀ d : F32,
        (Anglef.from_degrees d : AngleT F64)
          = AngleT.from_degrees (StaticCast.cast d : F64)
        ∧ (Anglef.from_radians d : AngleT F64)
          = AngleT.from_radians (StaticCast.cast d : F64))
    ∧ litf 1 = IEEE.fin false 1
    ∧ (Anglef.from_degrees (litf 1)).get_radians
        = IEEE.fin false (5030569068109113 / 288230376151711744)
    ∧ (StaticCast.cast (Anglef.from_degrees (litf 1)).get_radians : F32)
        = IEEE.fin false (9370165 / 536870912)
    ∧ (StaticCast.cast (StaticCast.cast (Anglef.from_degrees (litf 1)).get_radians : F32) : F64)
        ≠ (Anglef.from_degrees (litf 1)).get_radians := by
  refine ⟨fun _ => ⟨rfl, rfl⟩, by decide!, by decide!, by decide!, by decide!⟩

/-- C16: `a <= b` is `!(a > b)` and `a >= b` is `!(a < b)` for every pair of angles, so at
least one of `a <= b` and `b <= a` holds, in double precision and in exact arithmetic; and
when either radians value is NaN, `a <= b` and `a >= b` are both true while `a == b` is
false. -/
theorem C16_le_ge_are_negations :
    (∀ (T : Type) [Scalar T] (a b : AngleT T),
        AngleT.operator_le a b = !(AngleT.operator_gt a b)
        ∧ AngleT.operator_ge a b = !(AngleT.operator_lt a b))
    ∧ (∀ a b : Angle, AngleT.operator_le a b = true ∨ AngleT.operator_le b a = true)
    ∧ (∀ a b : AngleT ℚ, AngleT.operator_le a b = true ∨ AngleT.operator_le b a = true)
    ∧ (∀ a b : Angle, a.radians = IEEE.nan ∨ b.radians = IEEE.nan →
        AngleT.operator_le a b = true ∧ AngleT.operator_ge a b = true
        ∧ AngleT.operator_eq a b = false)
    ∧ (AngleT.operator_le (AngleT.ctor (IEEE.nan : F64) : Angle) (AngleT.ctor (lit 1)) = true
      ∧ AngleT.operator_ge (AngleT.ctor (IEEE.nan : F64) : Angle) (AngleT.ctor (lit 1)) = true
      ∧ AngleT.operator_eq (AngleT.ctor (IEEE.nan : F64) : Angle) (AngleT.ctor (lit 1))
          = false) := by
  refine ⟨fun _ _ _ _ => ⟨rfl, rfl⟩, ?_, ?_, ?_, by decide!⟩
  · intro a b
    show (!IEEE.lt b.radians a.radians) = true ∨ (!IEEE.lt a.radians b.radians) = true
    cases h : IEEE.lt b.radians a.radians with
    | false => left; rfl
    | true => right; rw [IEEE.lt_asymm _ _ h]; rfl
  · intro a b
    show (!decide (a.radians > b.radians)) = true ∨ (!decide (b.radians > a.radians)) = true
    rcases le_total a.radians b.radians with h | h
    · left; simp [h]
    · right; simp [h]
  · intro a b h
    show (!IEEE.lt b.radians a.radians) = true ∧ (!IEEE.lt a.radians b.radians) = true
      ∧ IEEE.eq a.radians b.radians = false
    rcases h with h | h <;> rw [h]
    · simp [(IEEE.lt_nan b.radians).1, (IEEE.lt_nan b.radians).2, (IEEE.eq_nan b.radians).1]
    · simp [(IEEE.lt_nan a.radians).1, (IEEE.lt_nan a.radians).2, (IEEE.eq_nan a.radians).2]

/-- C16, at a NaN angle and the angle of two radians. -/
theorem C16_le_ge_are_negations_witness :
    AngleT.operator_le ({ radians := IEEE.nan } : Angle) { radians := IEEE.fin false 2 } = true
    ∧ AngleT.operator_ge ({ radians := IEEE.nan } : Angle) { radians := IEEE.fin false 2 }
        = true
    ∧ AngleT.operator_eq ({ radians := IEEE.nan } : Angle) { radians := IEEE.fin false 2 }
        = false :=
  C16_le_ge_are_negations.2.2.2.1 { radians := IEEE.nan } { radians := IEEE.fin false 2 }
    (Or.inl rfl)

/-- C17: in exact arithmetic the order and the equality of two angles are those of their
degrees values, and `from_degrees` and `get_degrees` are strictly increasing and
injective: over the rationals with the `M_PI` of the header and over the reals with `π`. -/
theorem C17_order_agrees_with_degrees :
    (∀ a b : AngleT ℚ,
        AngleT.operator_lt a b = Scalar.lt a.get_degrees b.get_degrees
        ∧ AngleT.operator_eq a b = Scalar.eq a.get_degrees b.get_degrees)
    ∧ (∀ d1 d2 : ℚ,
        AngleT.operator_lt (AngleT.from_degrees d1) (AngleT.from_degrees d2)
          = Scalar.lt d1 d2
        ∧ AngleT.operator_eq (AngleT.from_degrees d1) (AngleT.from_degrees d2)
          = Scalar.eq d1 d2)
    ∧ (∀ a b : AngleT ℝ,
        AngleT.operator_lt a b = Scalar.lt a.get_degrees b.get_degrees
        ∧ AngleT.operator_eq a b = Scalar.eq a.get_degrees b.get_degrees)
    ∧ (∀ d1 d2 : ℝ,
        AngleT.operator_lt (AngleT.from_degrees d1) (AngleT.from_degrees d2)
          = Scalar.lt d1 d2
        ∧ AngleT.operator_eq (AngleT.from_degrees d1) (AngleT.from_degrees d2)
          = Scalar.eq d1 d2) := by
  refine ⟨?_, ?_, ?_, ?_⟩
  · intro a b
    constructor
    · show decide (a.radians < b.radians)
        = decide (a.radians * 180 / M_PI_literal < b.radians * 180 / M_PI_literal)
      exact decide_eq_decide.mpr (scale_lt_iff _ M_PI_literal_pos _ _).symm
    · show decide (a.radians = b.radians)
        = decide (a.radians * 180 / M_PI_literal = b.radians * 180 / M_PI_literal)
      exact decide_eq_decide.mpr (scale_eq_iff _ M_PI_literal_pos _ _).symm
  · intro d1 d2
    constructor
    · show decide (d1 * M_PI_literal / 180 < d2 * M_PI_literal / 180) = decide (d1 < d2)
      exact decide_eq_decide.mpr (unscale_lt_iff _ M_PI_literal_pos _ _)
    · show decide (d1 * M_PI_literal / 180 = d2 * M_PI_literal / 180) = decide (d1 = d2)
      exact decide_eq_decide.mpr (unscale_eq_iff _ M_PI_literal_pos _ _)
  · intro a b
    constructor
    · show decide (a.radians < b.radians)
        = decide (a.radians * 180 / Real.pi < b.radians * 180 / Real.pi)
      exact decide_eq_decide.mpr (scale_lt_iff _ Real.pi_pos _ _).symm
    · show decide (a.radians = b.radians)
        = decide (a.radians * 180 / Real.pi = b.radians * 180 / Real.pi)
      exact decide_eq_decide.mpr (scale_eq_iff _ Real.pi_pos _ _).symm
  · intro d1 d2
    constructor
    · show decide (d1 * Real.pi / 180 < d2 * Real.pi / 180) = decide (d1 < d2)
      exact decide_eq_decide.mpr (unscale_lt_iff _ Real.pi_pos _ _)
    · show decide (d1 * Real.pi / 180 = d2 * Real.pi / 180) = decide (d1 = d2)
      exact decide_eq_decide.mpr (unscale_eq_iff _ Real.pi_pos _ _)

/-- C18: subtracting an angle is adding its negation, and negating twice gives the angle
back, as stored values and under `==` whenever the value is not NaN, in double precision
and in exact arithmetic; and `a - a` holds `+0.0` for every `a` with a finite radians
value. -/
theorem C18_sub_is_add_neg :
    (∀ a b : Angle,
        (AngleT.operator_sub a b).get_radians
          = (AngleT.operator_add a (AngleT.operator_neg b)).get_radians
        ∧ ((AngleT.operator_sub a b).get_radians ≠ IEEE.nan →
            Scalar.eq (AngleT.operator_sub a b).get_radians
              (AngleT.operator_add a (AngleT.operator_neg b)).get_radians = true))
    ∧ (∀ a : Angle,
        (AngleT.operator_neg (AngleT.operator_neg a)).get_radians = a.get_radians
        ∧ (a.get_radians ≠ IEEE.nan →
            Scalar.eq (AngleT.operator_neg (AngleT.operator_neg a)).get_radians a.get_radians
              = true))
    ∧ (∀ (s : Bool) (m : ℚ),
        (AngleT.operator_sub ({ radians := IEEE.fin s m } : Angle)
          { radians := IEEE.fin s m }).get_radians = IEEE.fin false 0)
    ∧ (∀ a b : AngleT ℚ,
        (AngleT.operator_sub a b).get_radians
          = (AngleT.operator_add a (AngleT.operator_neg b)).get_radians
        ∧ (AngleT.operator_neg (AngleT.operator_neg a)).get_radians = a.get_radians
        ∧ (AngleT.operator_sub a a).get_radians = 0) := by
  have hneg : ∀ x : F64, IEEE.neg (IEEE.neg x) = x := by
    intro x
    cases x <;> simp [IEEE.neg]
  refine ⟨fun a b => ⟨rfl, fun h => IEEE.eq_self _ h⟩, ?_, ?_, ?_⟩
  · intro a
    have e : (AngleT.operator_neg (AngleT.operator_neg a)).get_radians = a.get_radians :=
      hneg a.radians
    refine ⟨e, fun h => ?_⟩
    rw [e]
    exact IEEE.eq_self _ h
  · intro s m
    show IEEE.add (IEEE.fin s m) (IEEE.neg (IEEE.fin s m)) = _
    cases s <;> simp [IEEE.neg, IEEE.add, IEEE.signed]
  · intro a b
    refine ⟨?_, ?_, ?_⟩
    · show a.radians - b.radians = a.radians + -b.radians
      ring
    · show - -a.radians = a.radians
      ring
    · show a.radians - a.radians = 0
      ring

/-- C18, at the angles of three and of two radians, whose difference is not NaN:
`a - b == a + (-b)` under `==`. -/
theorem C18_sub_is_add_neg_witness :
    Scalar.eq
      (AngleT.operator_sub ({ radians := lit 3 } : Angle) { radians := lit 2 }).get_radians
      (AngleT.operator_add ({ radians := lit 3 } : Angle)
        (AngleT.operator_neg { radians := lit 2 })).get_radians = true :=
  (C18_sub_is_add_neg.1 { radians := lit 3 } { radians := lit 2 }).2 (by decide!)

end gf
